import Mathlib

/-!
Verification of the recurring-task scheduler of `python_base_app`
(`base_app.py`) and its configuration coercion (`configuration.py`).

The embedding is shallow:

* wall-clock instants and durations (`datetime.datetime` / `timedelta`
  seconds) are rationals (`ℚ`);
* the scheduler queue `BaseApp._recurring_tasks` is a `List RecurringTask`
  manipulated by a faithful translation of CPython's `heapq` module
  (`_siftdown`, `_siftup`, `heappush`, `heappop`, `heapify`), which is what
  `base_app.py` uses;
* the event loop body (`BaseApp.event_queue`, one iteration of the outer
  `while`) is a function from the wall-clock times it observes and the
  application state to a new state plus a trace of observable events
  (handler invocations, `track_downtime` calls, the `handle_downtime`
  report); exceptions raised by task handlers are modelled by a
  `handler_fails` flag on the task and an exceptional result constructor.
-/

/-- Python's `int()` applied to a rational number: truncation toward zero.
Since `Rat` is stored in lowest terms and `Int` division rounds toward zero,
this is exactly `q.num / q.den`. Used to model `int(self._downtime)` at
`base_app.py:281`. -/
def pyInt (q : ℚ) : ℤ := q.num / q.den

/-! ## List index/permutation helpers

Small lemmas about `List.set`/`List.getD` used by the `heapq` proofs. -/

theorem getD_set_self {α : Type} (l : List α) (i : ℕ) (a d : α) (h : i < l.length) :
    (l.set i a).getD i d = a := by
  simp [List.getD_eq_getElem?_getD, List.getElem?_set_self h]

theorem getD_set_ne {α : Type} (l : List α) (i j : ℕ) (a d : α) (h : i ≠ j) :
    (l.set i a).getD j d = l.getD j d := by
  simp [List.getD_eq_getElem?_getD, List.getElem?_set_ne h]

theorem getD_eq_of_lt {α : Type} (l : List α) (i : ℕ) (d : α) (h : i < l.length) :
    l.getD i d = l[i] := by
  simp [List.getD_eq_getElem?_getD, List.getElem?_eq_getElem h]

/-- Replacing the element at a valid index and re-adding the old element in
front yields a permutation of consing the new element. -/
theorem perm_getD_cons_set {α : Type} (d : α) :
    ∀ (l : List α) (k : ℕ) (x : α), k < l.length →
      (l.getD k d :: l.set k x).Perm (x :: l)
  | a :: t, 0, x, _ => by simpa using List.Perm.swap x a t
  | a :: t, k + 1, x, h => by
    have ih := perm_getD_cons_set d t k x (by simpa using Nat.lt_of_succ_lt_succ h)
    exact (List.Perm.swap a (t.getD k d) (t.set k x)).trans
      ((ih.cons a).trans (List.Perm.swap x a t))

/-- Swapping which of two values ends up in position `k` is a permutation. -/
theorem perm_cons_set_comm {α : Type} :
    ∀ (t : List α) (k : ℕ) (x a : α), k < t.length →
      (x :: t.set k a).Perm (a :: t.set k x)
  | b :: tt, 0, x, a, _ => by simpa using List.Perm.swap a x tt
  | b :: tt, k + 1, x, a, h => by
    have ih := perm_cons_set_comm tt k x a (by simpa using Nat.lt_of_succ_lt_succ h)
    exact (List.Perm.swap b x (tt.set k a)).trans
      ((ih.cons b).trans (List.Perm.swap a b (tt.set k x)))

/-- Writing `l.getD j` into position `i` and then `x` into position `j`
permutes to simply writing `x` into position `i`. -/
theorem perm_set_set {α : Type} (d : α) :
    ∀ (l : List α) (i j : ℕ) (x : α), i < l.length → j < l.length → i ≠ j →
      ((l.set i (l.getD j d)).set j x).Perm (l.set i x)
  | a :: t, 0, j + 1, x, _, hj, _ => by
    have hj' : j < t.length := by simpa using Nat.lt_of_succ_lt_succ hj
    exact perm_getD_cons_set d t j x hj'
  | a :: t, i + 1, 0, x, hi, _, _ => by
    have hi' : i < t.length := by simpa using Nat.lt_of_succ_lt_succ hi
    exact perm_cons_set_comm t i x a hi'
  | a :: t, i + 1, j + 1, x, hi, hj, hij => by
    have ih := perm_set_set d t i j x (by simpa using Nat.lt_of_succ_lt_succ hi)
      (by simpa using Nat.lt_of_succ_lt_succ hj) (by omega)
    exact ih.cons a

/-! ## CPython `heapq`

Faithful functional translation of the CPython `heapq` module functions used
by `base_app.py`: `heappush`, `heappop`, `heapify` and the internal
`_siftdown`/`_siftup`. The element order `a < b` of the Python objects is
abstracted as a boolean comparator `lt`. Lists model the mutable Python
`list`; each in-place assignment `heap[i] = v` becomes `List.set`. -/

section Heapq

variable {α : Type} [Inhabited α] (lt : α → α → Bool)

/-- CPython `heapq._siftdown(heap, startpos, pos)` where `newitem` is the
value read from `heap[pos]` on entry: bubble `newitem` up toward `startpos`,
moving parents down while `newitem < parent`. -/
def siftdownAux (newitem : α) (startpos : ℕ) : ℕ → List α → List α
  | pos, heap =>
    if _h : startpos < pos then
      if lt newitem (heap.getD ((pos - 1) / 2) default) then
        siftdownAux newitem startpos ((pos - 1) / 2)
          (heap.set pos (heap.getD ((pos - 1) / 2) default))
      else
        heap.set pos newitem
    else
      heap.set pos newitem
termination_by pos _ => pos
decreasing_by omega

/-- The child index CPython `heapq._siftup` descends to from `pos`:
the right child when it exists and `not heap[childpos] < heap[rightpos]`,
otherwise the left child. -/
def siftupChild (heap : List α) (pos : ℕ) : ℕ :=
  if 2 * pos + 2 < heap.length ∧
      lt (heap.getD (2 * pos + 1) default) (heap.getD (2 * pos + 2) default) = false then
    2 * pos + 2
  else
    2 * pos + 1

/-- CPython `heapq._siftup(heap, pos)` where `newitem` is the value read from
`heap[pos]` on entry and `startpos` is the original `pos`: move the smaller
child up into the hole all the way to a leaf, then place `newitem` there and
call `_siftdown`. -/
def siftupAux (newitem : α) (startpos : ℕ) (pos : ℕ) (heap : List α) : List α :=
  if _h : 2 * pos + 1 < heap.length then
    siftupAux newitem startpos (siftupChild lt heap pos)
      (heap.set pos (heap.getD (siftupChild lt heap pos) default))
  else
    siftdownAux lt newitem startpos pos heap
termination_by heap.length - pos
decreasing_by
  simp only [List.length_set]
  have hc : pos < siftupChild lt heap pos ∧ siftupChild lt heap pos < heap.length := by
    unfold siftupChild
    split <;> omega
  omega

/-- CPython `heapq.heappush(heap, item)`: append then `_siftdown(heap, 0, len(heap)-1)`. -/
def heappush (heap : List α) (item : α) : List α :=
  siftdownAux lt item 0 heap.length (heap ++ [item])

/-- CPython `heapq.heappop(heap)`: pop the last element; if the heap is still
non-empty, save the root, move the last element to the root and `_siftup(heap, 0)`.
Returns `none` on an empty heap (Python raises `IndexError`). -/
def heappop (heap : List α) : Option (α × List α) :=
  if heap.length = 0 then none
  else if heap.length = 1 then some (heap.getD 0 default, [])
  else
    some (heap.getD 0 default,
      siftupAux lt (heap.getD (heap.length - 1) default) 0 0
        ((heap.take (heap.length - 1)).set 0 (heap.getD (heap.length - 1) default)))

/-- The loop `for i in reversed(range(n//2)): _siftup(x, i)` of
CPython `heapq.heapify`, with `i + 1` as the counter. -/
def heapifyAux : ℕ → List α → List α
  | 0, heap => heap
  | i + 1, heap => heapifyAux i (siftupAux lt (heap.getD i default) i i heap)

/-- CPython `heapq.heapify(x)`. -/
def heapify (heap : List α) : List α :=
  heapifyAux lt (heap.length / 2) heap

end Heapq

/-! ## Heap invariant and its preservation

The binary-heap shape uses the CPython indexing: the parent of position
`c > 0` is `(c - 1) / 2`. `IsHeapFrom s` restricts the parent/child
condition to edges whose parent index is at least `s`; `IsHeapFrom 0` is
the full heap invariant maintained by `heapq`. -/

/-- Position `j` lies in the subtree rooted at `s` (repeatedly taking
parents from `j` reaches `s`). -/
def descB (s : ℕ) : ℕ → Bool
  | j => if j = s then true else if j ≤ s then false else descB s ((j - 1) / 2)
termination_by j => j
decreasing_by omega

theorem descB_self (s : ℕ) : descB s s = true := by
  rw [descB]; simp

theorem descB_ge {s j : ℕ} (h : descB s j = true) : s ≤ j := by
  rw [descB] at h
  split at h
  · omega
  · split at h
    · simp at h
    · omega

theorem descB_parent {s j : ℕ} (hj : s < j) (h : descB s j = true) :
    descB s ((j - 1) / 2) = true := by
  rw [descB] at h
  split at h
  · omega
  · split at h
    · simp at h
    · exact h

theorem descB_child {s j c : ℕ} (h : descB s j = true) (hc : (c - 1) / 2 = j)
    (hcj : j < c) : descB s c = true := by
  have hs := descB_ge h
  rw [descB]
  split
  · rfl
  · split
    · omega
    · simpa [hc] using h

theorem descB_zero (j : ℕ) : descB 0 j = true := by
  induction j using Nat.strong_induction_on with
  | _ j ih =>
    rw [descB]
    split
    · rfl
    · split
      · omega
      · exact ih ((j - 1) / 2) (by omega)

section HeapInv

variable {α : Type} [Inhabited α] {lt : α → α → Bool}

/-- All parent/child edges whose parent index is at least `s` are ordered:
the child is not `lt` the parent. -/
def IsHeapFrom (lt : α → α → Bool) (s : ℕ) (l : List α) : Prop :=
  ∀ c, 0 < c → c < l.length → s ≤ (c - 1) / 2 →
    lt (l.getD c default) (l.getD ((c - 1) / 2) default) = false

/-- The full min-heap invariant of CPython `heapq`. -/
def IsHeap (lt : α → α → Bool) (l : List α) : Prop := IsHeapFrom lt 0 l

/-- In a heap, no element is `lt` the root: `heap[0]` is minimal. -/
theorem isHeap_root_min
    (hirr : ∀ a, lt a a = false)
    (hneg : ∀ a b c, lt b a = false → lt c b = false → lt c a = false)
    {l : List α} (hh : IsHeap lt l) :
    ∀ i, i < l.length → lt (l.getD i default) (l.getD 0 default) = false := by
  intro i
  induction i using Nat.strong_induction_on with
  | _ i ih =>
    intro hi
    rcases Nat.eq_zero_or_pos i with h0 | hp
    · subst h0; exact hirr _
    · have hedge := hh i hp hi (Nat.zero_le _)
      have hpar := ih ((i - 1) / 2) (by omega) (by omega)
      exact hneg _ _ _ hpar hedge

omit [Inhabited α] in
theorem lt_asymm_of (hirr : ∀ a, lt a a = false)
    (htr : ∀ a b c, lt a b = true → lt b c = true → lt a c = true)
    {a b : α} (h : lt a b = true) : lt b a = false := by
  by_contra hcon
  have hba : lt b a = true := by
    cases hab : lt b a
    · exact absurd hab hcon
    · rfl
  have := htr a b a h hba
  rw [hirr a] at this
  exact Bool.false_ne_true this

/-- Correctness of `_siftdown`: starting from an array whose region-`s`
edges all hold except those touching the hole `pos`, where the children of
the hole dominate both the value above the hole and `newitem`, bubbling
`newitem` up yields the region-`s` heap property, a permutation of writing
`newitem` at `pos`. -/
theorem siftdownAux_spec
    (hirr : ∀ a, lt a a = false)
    (htr : ∀ a b c, lt a b = true → lt b c = true → lt a c = true)
    (hneg : ∀ a b c, lt b a = false → lt c b = false → lt c a = false)
    (x : α) (s : ℕ) (pos : ℕ) (l : List α)
    (hs : s ≤ pos) (hlen : pos < l.length) (hdesc : descB s pos = true)
    (hB2 : ∀ c, 0 < c → c < l.length → s ≤ (c - 1) / 2 → c ≠ pos → (c - 1) / 2 ≠ pos →
      lt (l.getD c default) (l.getD ((c - 1) / 2) default) = false)
    (hB3 : s < pos → ∀ c, 0 < c → c < l.length → (c - 1) / 2 = pos →
      lt (l.getD c default) (l.getD ((pos - 1) / 2) default) = false)
    (hB4 : ∀ c, 0 < c → c < l.length → (c - 1) / 2 = pos →
      lt (l.getD c default) x = false) :
    (siftdownAux lt x s pos l).length = l.length ∧
    IsHeapFrom lt s (siftdownAux lt x s pos l) ∧
    (siftdownAux lt x s pos l).Perm (l.set pos x) := by
  rw [siftdownAux]
  by_cases hpos : s < pos
  · simp only [dif_pos hpos]
    by_cases hcmp : lt x (l.getD ((pos - 1) / 2) default) = true
    · rw [if_pos hcmp]
      have hpp : (pos - 1) / 2 < pos := by omega
      have hdesc' : descB s ((pos - 1) / 2) = true := descB_parent hpos hdesc
      have hs' : s ≤ (pos - 1) / 2 := descB_ge hdesc'
      have hlen' : (pos - 1) / 2 < (l.set pos (l.getD ((pos - 1) / 2) default)).length := by
        simp only [List.length_set]; omega
      have hB2' : ∀ c, 0 < c → c < (l.set pos (l.getD ((pos - 1) / 2) default)).length →
          s ≤ (c - 1) / 2 → c ≠ (pos - 1) / 2 → (c - 1) / 2 ≠ (pos - 1) / 2 →
          lt ((l.set pos (l.getD ((pos - 1) / 2) default)).getD c default)
            ((l.set pos (l.getD ((pos - 1) / 2) default)).getD ((c - 1) / 2) default) = false := by
        intro c hc0 hclen hcs hcne hcpne
        simp only [List.length_set] at hclen
        by_cases hceq : c = pos
        · exact absurd (by rw [hceq]) hcpne
        · by_cases hparc : (c - 1) / 2 = pos
          · rw [getD_set_ne _ _ _ _ _ (fun h => hceq h.symm)]
            rw [hparc, getD_set_self _ _ _ _ hlen]
            exact hB3 hpos c hc0 hclen hparc
          · rw [getD_set_ne _ _ _ _ _ (fun h => hceq h.symm)]
            rw [getD_set_ne _ _ _ _ _ (fun h => hparc h.symm)]
            exact hB2 c hc0 hclen hcs hceq hparc
      have hB3' : s < (pos - 1) / 2 → ∀ c, 0 < c →
          c < (l.set pos (l.getD ((pos - 1) / 2) default)).length → (c - 1) / 2 = (pos - 1) / 2 →
          lt ((l.set pos (l.getD ((pos - 1) / 2) default)).getD c default)
            ((l.set pos (l.getD ((pos - 1) / 2) default)).getD (((pos - 1) / 2 - 1) / 2) default)
            = false := by
        intro hspp c hc0 hclen hparc
        simp only [List.length_set] at hclen
        have hgp_lt : ((pos - 1) / 2 - 1) / 2 < (pos - 1) / 2 := by omega
        have hgp_ne : pos ≠ ((pos - 1) / 2 - 1) / 2 := by omega
        rw [getD_set_ne _ _ _ _ _ hgp_ne]
        have hdesc2 : descB s (((pos - 1) / 2 - 1) / 2) = true := descB_parent hspp hdesc'
        have hregion : s ≤ ((pos - 1) / 2 - 1) / 2 := descB_ge hdesc2
        have hedge_pp : lt (l.getD ((pos - 1) / 2) default)
            (l.getD (((pos - 1) / 2 - 1) / 2) default) = false :=
          hB2 ((pos - 1) / 2) (by omega) (by omega) hregion (by omega) (by omega)
        by_cases hceq : c = pos
        · rw [hceq, getD_set_self _ _ _ _ hlen]
          exact hedge_pp
        · rw [getD_set_ne _ _ _ _ _ (fun h => hceq h.symm)]
          have hedge_c : lt (l.getD c default) (l.getD ((pos - 1) / 2) default) = false := by
            have := hB2 c hc0 hclen (by omega) hceq (by omega)
            rw [hparc] at this
            exact this
          exact hneg _ _ _ hedge_pp hedge_c
      have hB4' : ∀ c, 0 < c → c < (l.set pos (l.getD ((pos - 1) / 2) default)).length →
          (c - 1) / 2 = (pos - 1) / 2 →
          lt ((l.set pos (l.getD ((pos - 1) / 2) default)).getD c default) x = false := by
        intro c hc0 hclen hparc
        simp only [List.length_set] at hclen
        by_cases hceq : c = pos
        · rw [hceq, getD_set_self _ _ _ _ hlen]
          exact lt_asymm_of hirr htr hcmp
        · rw [getD_set_ne _ _ _ _ _ (fun h => hceq h.symm)]
          have hedge_c : lt (l.getD c default) (l.getD ((pos - 1) / 2) default) = false := by
            have := hB2 c hc0 hclen (by omega) hceq (by omega)
            rw [hparc] at this
            exact this
          by_contra hcon
          have hcx : lt (l.getD c default) x = true := by
            cases hv : lt (l.getD c default) x
            · exact absurd hv hcon
            · rfl
          have := htr _ _ _ hcx hcmp
          rw [hedge_c] at this
          exact Bool.false_ne_true this
      obtain ⟨hrlen, hrheap, hrperm⟩ := siftdownAux_spec hirr htr hneg x s ((pos - 1) / 2)
        (l.set pos (l.getD ((pos - 1) / 2) default)) hs' hlen' hdesc' hB2' hB3' hB4'
      refine ⟨by simpa [List.length_set] using hrlen, hrheap, hrperm.trans ?_⟩
      exact perm_set_set default l pos ((pos - 1) / 2) x hlen (by omega) (by omega)
    · rw [if_neg hcmp]
      refine ⟨by simp, ?_, List.Perm.refl _⟩
      intro c hc0 hclen hcs
      simp only [List.length_set] at hclen
      by_cases hceq : c = pos
      · rw [hceq, getD_set_self _ _ _ _ hlen]
        rw [getD_set_ne _ _ _ _ _ (by omega : pos ≠ (pos - 1) / 2)]
        cases hv : lt x (l.getD ((pos - 1) / 2) default)
        · rfl
        · exact absurd hv hcmp
      · by_cases hparc : (c - 1) / 2 = pos
        · rw [getD_set_ne _ _ _ _ _ (fun h => hceq h.symm)]
          rw [hparc, getD_set_self _ _ _ _ hlen]
          exact hB4 c hc0 hclen hparc
        · rw [getD_set_ne _ _ _ _ _ (fun h => hceq h.symm)]
          rw [getD_set_ne _ _ _ _ _ (fun h => hparc h.symm)]
          exact hB2 c hc0 hclen hcs hceq hparc
  · simp only [dif_neg hpos]
    have hps : pos = s := by omega
    refine ⟨by simp, ?_, List.Perm.refl _⟩
    intro c hc0 hclen hcs
    simp only [List.length_set] at hclen
    by_cases hceq : c = pos
    · exact absurd hcs (by omega)
    · by_cases hparc : (c - 1) / 2 = pos
      · rw [getD_set_ne _ _ _ _ _ (fun h => hceq h.symm)]
        rw [hparc, getD_set_self _ _ _ _ hlen]
        exact hB4 c hc0 hclen hparc
      · rw [getD_set_ne _ _ _ _ _ (fun h => hceq h.symm)]
        rw [getD_set_ne _ _ _ _ _ (fun h => hparc h.symm)]
        exact hB2 c hc0 hclen hcs hceq hparc
termination_by pos

/-- The child `_siftup` descends to is a child of `pos`, in bounds, and not
`lt`-above the other child (when that other child exists). -/
theorem siftupChild_spec
    (hirr : ∀ a, lt a a = false)
    (htr : ∀ a b c, lt a b = true → lt b c = true → lt a c = true)
    (l : List α) (pos : ℕ) (h : 2 * pos + 1 < l.length) :
    ((siftupChild lt l pos - 1) / 2 = pos ∧
     siftupChild lt l pos < l.length ∧ pos < siftupChild lt l pos) ∧
    (∀ o, 0 < o → o < l.length → (o - 1) / 2 = pos → o ≠ siftupChild lt l pos →
      lt (l.getD o default) (l.getD (siftupChild lt l pos) default) = false) := by
  unfold siftupChild
  split
  case isTrue hcond =>
    refine ⟨⟨by omega, by omega, by omega⟩, ?_⟩
    intro o ho0 holen hopar hone
    have : o = 2 * pos + 1 := by omega
    rw [this]
    exact hcond.2
  case isFalse hcond =>
    refine ⟨⟨by omega, by omega, by omega⟩, ?_⟩
    intro o ho0 holen hopar hone
    have ho : o = 2 * pos + 2 := by omega
    have hrlen : 2 * pos + 2 < l.length := by omega
    have hlr : lt (l.getD (2 * pos + 1) default) (l.getD (2 * pos + 2) default) = true := by
      cases hv : lt (l.getD (2 * pos + 1) default) (l.getD (2 * pos + 2) default)
      · exact absurd ⟨hrlen, hv⟩ hcond
      · rfl
    rw [ho]
    exact lt_asymm_of hirr htr hlr

/-- Correctness of `_siftup`: if every region-`s` edge not touching `pos`
holds, and the children of `pos` dominate the value above `pos`, then
moving the smaller-child chain up, placing `newitem` at the leaf and
sifting it back down restores the region-`s` heap property, permuting the
array obtained by writing `newitem` at `pos`. -/
theorem siftupAux_spec
    (hirr : ∀ a, lt a a = false)
    (htr : ∀ a b c, lt a b = true → lt b c = true → lt a c = true)
    (hneg : ∀ a b c, lt b a = false → lt c b = false → lt c a = false)
    (x : α) (s : ℕ) (pos : ℕ) (l : List α)
    (hs : s ≤ pos) (hlen : pos < l.length) (hdesc : descB s pos = true)
    (hC2 : ∀ c, 0 < c → c < l.length → s ≤ (c - 1) / 2 → c ≠ pos → (c - 1) / 2 ≠ pos →
      lt (l.getD c default) (l.getD ((c - 1) / 2) default) = false)
    (hC3 : s < pos → ∀ c, 0 < c → c < l.length → (c - 1) / 2 = pos →
      lt (l.getD c default) (l.getD ((pos - 1) / 2) default) = false) :
    (siftupAux lt x s pos l).length = l.length ∧
    IsHeapFrom lt s (siftupAux lt x s pos l) ∧
    (siftupAux lt x s pos l).Perm (l.set pos x) := by
  rw [siftupAux]
  by_cases hch : 2 * pos + 1 < l.length
  · simp only [dif_pos hch]
    obtain ⟨⟨hcpar, hclen, hcpos⟩, hmin⟩ := siftupChild_spec hirr htr l pos hch
    have hs' : s ≤ siftupChild lt l pos := le_trans hs (le_of_lt hcpos)
    have hlen' : siftupChild lt l pos <
        (l.set pos (l.getD (siftupChild lt l pos) default)).length := by
      simp only [List.length_set]; exact hclen
    have hdesc' : descB s (siftupChild lt l pos) = true := descB_child hdesc hcpar hcpos
    have hC2' : ∀ c, 0 < c → c < (l.set pos (l.getD (siftupChild lt l pos) default)).length →
        s ≤ (c - 1) / 2 → c ≠ siftupChild lt l pos → (c - 1) / 2 ≠ siftupChild lt l pos →
        lt ((l.set pos (l.getD (siftupChild lt l pos) default)).getD c default)
          ((l.set pos (l.getD (siftupChild lt l pos) default)).getD ((c - 1) / 2) default)
          = false := by
      intro c hc0 hclen2 hcs hcne hcpne
      simp only [List.length_set] at hclen2
      by_cases hceq : c = pos
      · have hpos0 : 0 < pos := by omega
        have hppne : pos ≠ (pos - 1) / 2 := by omega
        rw [hceq, getD_set_self _ _ _ _ hlen, getD_set_ne _ _ _ _ _ hppne]
        have hspos : s < pos := by
          rw [hceq] at hcs
          omega
        exact hC3 hspos (siftupChild lt l pos) (by omega) hclen hcpar
      · by_cases hparc : (c - 1) / 2 = pos
        · rw [getD_set_ne _ _ _ _ _ (fun h => hceq h.symm)]
          rw [hparc, getD_set_self _ _ _ _ hlen]
          exact hmin c hc0 hclen2 hparc hcne
        · rw [getD_set_ne _ _ _ _ _ (fun h => hceq h.symm)]
          rw [getD_set_ne _ _ _ _ _ (fun h => hparc h.symm)]
          exact hC2 c hc0 hclen2 hcs hceq hparc
    have hC3' : s < siftupChild lt l pos → ∀ c, 0 < c →
        c < (l.set pos (l.getD (siftupChild lt l pos) default)).length →
        (c - 1) / 2 = siftupChild lt l pos →
        lt ((l.set pos (l.getD (siftupChild lt l pos) default)).getD c default)
          ((l.set pos (l.getD (siftupChild lt l pos) default)).getD
            ((siftupChild lt l pos - 1) / 2) default) = false := by
      intro _ c hc0 hclen2 hparc
      simp only [List.length_set] at hclen2
      have hcgt : siftupChild lt l pos < c := by omega
      rw [getD_set_ne _ _ _ _ _ (by omega : pos ≠ c)]
      rw [hcpar, getD_set_self _ _ _ _ hlen]
      have := hC2 c hc0 hclen2 (by omega) (by omega) (by omega)
      rw [hparc] at this
      exact this
    obtain ⟨hrlen, hrheap, hrperm⟩ := siftupAux_spec hirr htr hneg x s
      (siftupChild lt l pos) (l.set pos (l.getD (siftupChild lt l pos) default))
      hs' hlen' hdesc' hC2' hC3'
    refine ⟨by simpa [List.length_set] using hrlen, hrheap, hrperm.trans ?_⟩
    exact perm_set_set default l pos (siftupChild lt l pos) x hlen hclen (by omega)
  · simp only [dif_neg hch]
    apply siftdownAux_spec hirr htr hneg x s pos l hs hlen hdesc hC2
    · intro _ c hc0 hclen2 hparc
      exact absurd hclen2 (by omega)
    · intro c hc0 hclen2 hparc
      exact absurd hclen2 (by omega)
termination_by l.length - pos
decreasing_by simp only [List.length_set]; omega

end HeapInv

theorem getD_append_left {α : Type} (l l2 : List α) (j : ℕ) (d : α) (h : j < l.length) :
    (l ++ l2).getD j d = l.getD j d := by
  simp [List.getD_eq_getElem?_getD, List.getElem?_append_left h]

theorem getD_append_len {α : Type} (l : List α) (x d : α) :
    (l ++ [x]).getD l.length d = x := by
  simp [List.getD_eq_getElem?_getD, List.getElem?_append_right (Nat.le_refl _)]

theorem set_append_len {α : Type} : ∀ (l : List α) (x y : α),
    (l ++ [x]).set l.length y = l ++ [y]
  | [], x, y => rfl
  | a :: t, x, y => by simp [set_append_len t x y]

theorem getD_take {α : Type} (l : List α) (m j : ℕ) (d : α) (h : j < m) :
    (l.take m).getD j d = l.getD j d := by
  simp [List.getD_eq_getElem?_getD, List.getElem?_take_of_lt h]

theorem take_append_getD {α : Type} (d : α) :
    ∀ (l : List α), l ≠ [] → l.take (l.length - 1) ++ [l.getD (l.length - 1) d] = l
  | [], h => absurd rfl h
  | [a], _ => rfl
  | a :: b :: t, _ => by
    have h := take_append_getD d (b :: t) (by simp)
    simp only [List.length_cons, Nat.add_sub_cancel] at h
    simp only [List.length_cons, Nat.add_sub_cancel, List.take_succ_cons, List.getD_cons_succ,
      List.cons_append, List.cons.injEq, true_and]
    exact h

theorem set_getD_self {α : Type} (d : α) :
    ∀ (l : List α) (i : ℕ), i < l.length → l.set i (l.getD i d) = l
  | a :: t, 0, _ => rfl
  | a :: t, i + 1, h => by
    have := set_getD_self d t i (by simpa using Nat.lt_of_succ_lt_succ h)
    simpa using this

section HeapOps

variable {α : Type} [Inhabited α] {lt : α → α → Bool}

/-- `heappush` on a heap yields a heap that is a permutation of consing the
new item. -/
theorem heappush_spec
    (hirr : ∀ a, lt a a = false)
    (htr : ∀ a b c, lt a b = true → lt b c = true → lt a c = true)
    (hneg : ∀ a b c, lt b a = false → lt c b = false → lt c a = false)
    (l : List α) (x : α) (hh : IsHeap lt l) :
    (heappush lt l x).length = l.length + 1 ∧ IsHeap lt (heappush lt l x) ∧
    (heappush lt l x).Perm (x :: l) := by
  unfold heappush
  have hlen : l.length < (l ++ [x]).length := by simp
  obtain ⟨h1, h2, h3⟩ := siftdownAux_spec hirr htr hneg x 0 l.length (l ++ [x])
    (Nat.zero_le _) hlen (descB_zero _)
    (by
      intro c hc0 hclen hcs hcne hcpne
      simp only [List.length_append, List.length_cons, List.length_nil] at hclen
      have hcl : c < l.length := by omega
      rw [getD_append_left _ _ _ _ hcl, getD_append_left _ _ _ _ (by omega)]
      exact hh c hc0 hcl (Nat.zero_le _))
    (by
      intro _ c hc0 hclen hparc
      simp only [List.length_append, List.length_cons, List.length_nil] at hclen
      omega)
    (by
      intro c hc0 hclen hparc
      simp only [List.length_append, List.length_cons, List.length_nil] at hclen
      omega)
  refine ⟨by simpa using h1, h2, h3.trans ?_⟩
  rw [set_append_len]
  exact List.perm_append_singleton x l

/-- `heappop` on a non-empty heap returns `heap[0]` and a heap holding the
remaining elements. -/
theorem heappop_spec
    (hirr : ∀ a, lt a a = false)
    (htr : ∀ a b c, lt a b = true → lt b c = true → lt a c = true)
    (hneg : ∀ a b c, lt b a = false → lt c b = false → lt c a = false)
    (l : List α) (hh : IsHeap lt l) (hne : l ≠ []) :
    ∃ q, heappop lt l = some (l.getD 0 default, q) ∧ IsHeap lt q ∧
      (l.getD 0 default :: q).Perm l ∧ q.length = l.length - 1 := by
  unfold heappop
  have hl0 : l.length ≠ 0 := by
    intro h
    exact hne (List.length_eq_zero.mp h)
  rw [if_neg hl0]
  by_cases hl1 : l.length = 1
  · rw [if_pos hl1]
    obtain ⟨a, rfl⟩ := List.length_eq_one.mp hl1
    refine ⟨[], rfl, ?_, List.Perm.refl _, by simp⟩
    intro c hc0 hclen
    exact absurd hclen (by simp)
  · rw [if_neg hl1]
    have hn2 : 2 ≤ l.length := by omega
    have hrestlen : (l.take (l.length - 1)).length = l.length - 1 := by
      rw [List.length_take]
      omega
    have h0len : 0 <
        ((l.take (l.length - 1)).set 0 (l.getD (l.length - 1) default)).length := by
      simp only [List.length_set, hrestlen]
      omega
    obtain ⟨h1, h2, h3⟩ := siftupAux_spec hirr htr hneg (l.getD (l.length - 1) default) 0 0
      ((l.take (l.length - 1)).set 0 (l.getD (l.length - 1) default))
      (Nat.le_refl 0) h0len (descB_self 0)
      (by
        intro c hc0 hclen hcs hcne hcpne
        simp only [List.length_set, hrestlen] at hclen
        rw [getD_set_ne _ _ _ _ _ (fun h => hcne h.symm)]
        rw [getD_set_ne _ _ _ _ _ (fun h => hcpne h.symm)]
        rw [getD_take _ _ _ _ (by omega), getD_take _ _ _ _ (by omega)]
        exact hh c hc0 (by omega) (Nat.zero_le _))
      (fun h => absurd h (by omega))
    refine ⟨_, rfl, h2, ?_, ?_⟩
    · have h4 : ((l.take (l.length - 1)).set 0 (l.getD (l.length - 1) default)).set 0
          (l.getD (l.length - 1) default)
          = (l.take (l.length - 1)).set 0 (l.getD (l.length - 1) default) :=
        List.set_set _ _ _ _
      rw [h4] at h3
      have hg0 : l.getD 0 default = (l.take (l.length - 1)).getD 0 default :=
        (getD_take l (l.length - 1) 0 default (by omega)).symm
      have h5 := perm_getD_cons_set default (l.take (l.length - 1)) 0
        (l.getD (l.length - 1) default) (by omega)
      have hl6 : l.take (l.length - 1) ++ [l.getD (l.length - 1) default] = l :=
        take_append_getD default l hne
      have h6 : (l.getD (l.length - 1) default :: l.take (l.length - 1)).Perm l := by
        have hp := (List.perm_append_singleton (l.getD (l.length - 1) default)
          (l.take (l.length - 1))).symm
        rw [hl6] at hp
        exact hp
      rw [hg0]
      exact ((h3.cons _).trans h5).trans h6
    · simp only [h1, List.length_set, hrestlen]

/-- Floyd's loop of `heapify`: once all indices below `k` are processed,
the whole array is a heap and a permutation of the input. -/
theorem heapifyAux_spec
    (hirr : ∀ a, lt a a = false)
    (htr : ∀ a b c, lt a b = true → lt b c = true → lt a c = true)
    (hneg : ∀ a b c, lt b a = false → lt c b = false → lt c a = false) :
    ∀ (k : ℕ) (l : List α), 2 * k ≤ l.length → IsHeapFrom lt k l →
      (heapifyAux lt k l).length = l.length ∧ IsHeap lt (heapifyAux lt k l) ∧
      (heapifyAux lt k l).Perm l
  | 0, l, _, hh => ⟨rfl, hh, List.Perm.refl l⟩
  | k + 1, l, hk, hh => by
    rw [heapifyAux]
    have hklen : k < l.length := by omega
    obtain ⟨h1, h2, h3⟩ := siftupAux_spec hirr htr hneg (l.getD k default) k k l
      (Nat.le_refl k) hklen (descB_self k)
      (by
        intro c hc0 hclen hcs hcne hcpne
        exact hh c hc0 hclen (by omega))
      (fun h => absurd h (by omega))
    rw [set_getD_self default l k hklen] at h3
    obtain ⟨g1, g2, g3⟩ := heapifyAux_spec hirr htr hneg k
      (siftupAux lt (l.getD k default) k k l) (by rw [h1]; omega) h2
    exact ⟨g1.trans h1, g2, g3.trans h3⟩

/-- `heapify` turns an arbitrary array into a heap holding the same elements. -/
theorem heapify_spec
    (hirr : ∀ a, lt a a = false)
    (htr : ∀ a b c, lt a b = true → lt b c = true → lt a c = true)
    (hneg : ∀ a b c, lt b a = false → lt c b = false → lt c a = false)
    (l : List α) :
    (heapify lt l).length = l.length ∧ IsHeap lt (heapify lt l) ∧
    (heapify lt l).Perm l := by
  unfold heapify
  apply heapifyAux_spec hirr htr hneg (l.length / 2) l (by omega)
  intro c hc0 hclen hcs
  exact absurd hclen (by omega)

end HeapOps

/-! ## The task model (`base_app.py`)

Wall-clock instants (`datetime.datetime.utcnow()`) and durations in seconds
are rationals. A task's `handler_method` is opaque to the scheduler except
for whether it raises when invoked, which the `handler_fails` flag records.
-/

def DEFAULT_TASK_INTERVAL : ℚ := 10

def DEFAULT_MAXIMUM_TIMER_SLACK : ℚ := 5

def DEFAULT_MINIMUM_DOWNTIME_DURATION : ℚ := 20

def ETERNITY : ℚ := 24 * 3600

/-- `RecurringTask.__init__`: `next_execution` starts out unset (`None`). -/
structure RecurringTask where
  name : String
  interval : ℚ := DEFAULT_TASK_INTERVAL
  next_execution : Option ℚ := none
  fixed_schedule : Bool := false
  handler_fails : Bool := false
deriving Repr, DecidableEq, Inhabited

/-- Strict comparison of optional timestamps. For two set timestamps this is
the `datetime` order used (via `RecurringTask.__lt__`/`__gt__`) by `heapq`.
A `None` operand would raise `TypeError` in Python; every queued task has a
set `next_execution` (`add_recurring_task` computes it before pushing), so
those cases are unreachable, and the model totalises them with `None` as
bottom. -/
def optLt : Option ℚ → Option ℚ → Bool
  | some x, some y => decide (x < y)
  | none, some _ => true
  | _, none => false

/-- The effective comparison `a < b` performed by `heapq` on two queued
tasks: `RecurringTask.__lt__(a, b)` returns `a.next_execution < b`, which
Python resolves through `RecurringTask.__gt__(b, a.next_execution)` to
`b.next_execution > a.next_execution`, i.e. the timestamps are compared. -/
def taskLt (a b : RecurringTask) : Bool := optLt a.next_execution b.next_execution

theorem optLt_irrefl : ∀ a, optLt a a = false := by
  intro a
  cases a <;> simp [optLt]

theorem optLt_trans : ∀ a b c, optLt a b = true → optLt b c = true → optLt a c = true := by
  intro a b c
  cases a <;> cases b <;> cases c <;> simp only [optLt, decide_eq_true_eq] <;>
    first
      | (intro h1 h2; exact h1.trans h2)
      | simp

theorem optLt_negtrans : ∀ a b c, optLt b a = false → optLt c b = false →
    optLt c a = false := by
  intro a b c
  cases a <;> cases b <;> cases c <;>
    simp only [optLt, decide_eq_true_eq, decide_eq_false_iff_not, not_lt] <;>
    first
      | (intro h1 h2; exact h1.trans h2)
      | simp

theorem taskLt_irrefl : ∀ a : RecurringTask, taskLt a a = false :=
  fun a => optLt_irrefl a.next_execution

theorem taskLt_trans : ∀ a b c : RecurringTask, taskLt a b = true → taskLt b c = true →
    taskLt a c = true :=
  fun _ _ _ h1 h2 => optLt_trans _ _ _ h1 h2

theorem taskLt_negtrans : ∀ a b c : RecurringTask, taskLt b a = false → taskLt c b = false →
    taskLt c a = false :=
  fun _ _ _ h1 h2 => optLt_negtrans _ _ _ h1 h2

/-- `RecurringTask.compute_next_execution_time` (`base_app.py:94`), with
`now` the value of `datetime.datetime.utcnow()` at the call. -/
def compute_next_execution_time (now : ℚ) (t : RecurringTask) : RecurringTask :=
  match t.next_execution with
  | none => { t with next_execution := some now }
  | some prev =>
    if t.fixed_schedule then
      { t with next_execution := some (prev + t.interval) }
    else
      { t with next_execution := some (now + t.interval) }

/-- `RecurringTask.adapt_to_delay` (`base_app.py:105`). -/
def adapt_to_delay (p_delay : ℚ) (t : RecurringTask) : RecurringTask :=
  match t.next_execution with
  | none => t
  | some x => { t with next_execution := some (x + p_delay) }

/-- `BaseApp.add_recurring_task` (`base_app.py:135`): compute the next
execution time, then `heappush` the task. -/
def add_recurring_task (now : ℚ) (t : RecurringTask) (q : List RecurringTask) :
    List RecurringTask :=
  heappush taskLt q (compute_next_execution_time now t)

/-- `BaseApp.adapt_active_recurring_tasks` (`base_app.py:193`): shift every
queued task by the delay, then `heapq.heapify` the queue. -/
def adapt_active_recurring_tasks (p_delay : ℚ) (q : List RecurringTask) :
    List RecurringTask :=
  heapify taskLt (q.map (adapt_to_delay p_delay))

theorem compute_next_isSome (now : ℚ) (t : RecurringTask) :
    (compute_next_execution_time now t).next_execution.isSome := by
  unfold compute_next_execution_time
  cases t.next_execution <;> simp
  split <;> simp

theorem adapt_isSome (d : ℚ) (t : RecurringTask) :
    (adapt_to_delay d t).next_execution.isSome = t.next_execution.isSome := by
  unfold adapt_to_delay
  cases h : t.next_execution <;> simp [h]

/-- C4: `computeNextExecutionTime` behaves by cases: an unset
`nextExecution` becomes the current time; otherwise with `fixedSchedule`
it advances by `interval` from the previous scheduled time, independent of
the current time; otherwise it becomes the current time plus `interval`. -/
theorem c4_compute_next_execution_cases (now : ℚ) (t : RecurringTask) :
    (t.next_execution = none →
      (compute_next_execution_time now t).next_execution = some now) ∧
    (∀ prev, t.next_execution = some prev → t.fixed_schedule = true →
      (compute_next_execution_time now t).next_execution = some (prev + t.interval)) ∧
    (∀ prev, t.next_execution = some prev → t.fixed_schedule = false →
      (compute_next_execution_time now t).next_execution = some (now + t.interval)) := by
  refine ⟨?_, ?_, ?_⟩
  · intro h
    unfold compute_next_execution_time
    rw [h]
  · intro prev h hf
    unfold compute_next_execution_time
    rw [h]
    simp [hf]
  · intro prev h hf
    unfold compute_next_execution_time
    rw [h]
    simp [hf]

/-- Witness for C4 at concrete inputs. -/
theorem c4_compute_next_execution_cases_witness :
    (compute_next_execution_time 7 { name := "a" }).next_execution = some 7 ∧
    (compute_next_execution_time 7
      { name := "b", interval := 3, next_execution := some 50,
        fixed_schedule := true }).next_execution = some (50 + 3) ∧
    (compute_next_execution_time 7
      { name := "c", interval := 3, next_execution := some 50 }).next_execution
      = some (7 + 3) :=
  ⟨(c4_compute_next_execution_cases 7 _).1 rfl,
   (c4_compute_next_execution_cases 7 _).2.1 50 rfl rfl,
   (c4_compute_next_execution_cases 7 _).2.2 50 rfl rfl⟩

/-- C2: `shiftAll(D)` (`adapt_active_recurring_tasks`) leaves the queue a
permutation of shifting every task by `D`; a task with timestamp `x` moves
to `x + D`, so the strict order of any two queued timestamps is preserved. -/
theorem c2_shift_all_preserves_order (D : ℚ) (q : List RecurringTask) :
    (adapt_active_recurring_tasks D q).Perm (q.map (adapt_to_delay D)) ∧
    (∀ t x, t ∈ q → t.next_execution = some x →
      (adapt_to_delay D t).next_execution = some (x + D)) ∧
    (∀ a b xa xb, a ∈ q → b ∈ q → a.next_execution = some xa →
      b.next_execution = some xb → xa < xb → xa + D < xb + D) := by
  refine ⟨(heapify_spec taskLt_irrefl taskLt_trans taskLt_negtrans _).2.2, ?_, ?_⟩
  · intro t x _ hx
    unfold adapt_to_delay
    rw [hx]
  · intro a b xa xb _ _ _ _ hlt
    exact add_lt_add_right hlt D

/-- Witness for C2 at a concrete two-task queue. -/
theorem c2_shift_all_preserves_order_witness :
    (adapt_active_recurring_tasks 5
        [{ name := "a", next_execution := some 1 },
         { name := "b", next_execution := some 2 }]).Perm
      ([{ name := "a", next_execution := some 1 },
        { name := "b", next_execution := some 2 }].map (adapt_to_delay 5)) ∧
    (adapt_to_delay 5
      { name := "a", next_execution := some 1 : RecurringTask }).next_execution
      = some (1 + 5) ∧
    ((1 : ℚ) + 5 < 2 + 5) :=
  ⟨(c2_shift_all_preserves_order 5
      [{ name := "a", next_execution := some 1 },
       { name := "b", next_execution := some 2 }]).1,
   (c2_shift_all_preserves_order 5
      [{ name := "a", next_execution := some 1 },
       { name := "b", next_execution := some 2 }]).2.1
     { name := "a", next_execution := some 1 } 1 (List.Mem.head _) rfl,
   (c2_shift_all_preserves_order 5
      [{ name := "a", next_execution := some 1 },
       { name := "b", next_execution := some 2 }]).2.2
     { name := "a", next_execution := some 1 }
     { name := "b", next_execution := some 2 } 1 2
     (List.Mem.head _) (List.Mem.tail _ (List.Mem.head _)) rfl rfl (by norm_num)⟩


/-- Queued tasks always have a set `next_execution`. -/
def AllSome (q : List RecurringTask) : Prop :=
  ∀ t ∈ q, t.next_execution.isSome = true

/-- The queue states reachable from an empty queue by the three scheduler
operations of `BaseApp`: `add_recurring_task` (registration and
reinsertion), the pop-and-reinsert of the catch-up loop
(`base_app.py:265-266`), and `adapt_active_recurring_tasks`. -/
inductive Reachable : List RecurringTask → Prop
  | empty : Reachable []
  | register (now : ℚ) (t : RecurringTask) (q : List RecurringTask) :
      Reachable q → Reachable (add_recurring_task now t q)
  | pop_reinsert (now : ℚ) (q : List RecurringTask) (r : RecurringTask)
      (rest : List RecurringTask) :
      Reachable q → heappop taskLt q = some (r, rest) →
      Reachable (add_recurring_task now r rest)
  | shift (d : ℚ) (q : List RecurringTask) :
      Reachable q → Reachable (adapt_active_recurring_tasks d q)

theorem add_recurring_task_invariant (now : ℚ) (t : RecurringTask)
    (q : List RecurringTask) (hh : IsHeap taskLt q) (hs : AllSome q) :
    IsHeap taskLt (add_recurring_task now t q) ∧ AllSome (add_recurring_task now t q) := by
  obtain ⟨_, hheap, hperm⟩ := heappush_spec taskLt_irrefl taskLt_trans taskLt_negtrans
    q (compute_next_execution_time now t) hh
  refine ⟨hheap, ?_⟩
  intro x hx
  have hx2 : x ∈ compute_next_execution_time now t :: q := hperm.mem_iff.mp hx
  rcases List.mem_cons.mp hx2 with h | h
  · rw [h]
    exact compute_next_isSome now t
  · exact hs x h

/-- Invariant: every reachable queue is a `heapq` heap of tasks whose
`next_execution` is set. -/
theorem reachable_invariant (q : List RecurringTask) (h : Reachable q) :
    IsHeap taskLt q ∧ AllSome q := by
  induction h with
  | empty =>
    constructor
    · intro c hc0 hclen _
      exact absurd hclen (by simp)
    · intro t ht
      exact absurd ht (List.not_mem_nil t)
  | register now t q hq ih =>
    exact add_recurring_task_invariant now t q ih.1 ih.2
  | pop_reinsert now q r rest hq hpop ih =>
    obtain ⟨hh, hs⟩ := ih
    have hne : q ≠ [] := by
      intro hcon
      rw [hcon] at hpop
      simp [heappop] at hpop
    obtain ⟨q2, hpop2, hheap2, hperm2, _⟩ :=
      heappop_spec taskLt_irrefl taskLt_trans taskLt_negtrans q hh hne
    rw [hpop2] at hpop
    have hpair := Option.some.inj hpop
    have hrest : q2 = rest := congrArg Prod.snd hpair
    have hs2 : AllSome rest := by
      intro x hx
      apply hs
      rw [← hrest] at hx
      exact hperm2.subset (List.mem_cons_of_mem _ hx)
    exact add_recurring_task_invariant now r rest (hrest ▸ hheap2) hs2
  | shift d q hq ih =>
    obtain ⟨hh, hs⟩ := ih
    obtain ⟨_, hheap, hperm⟩ := heapify_spec taskLt_irrefl taskLt_trans taskLt_negtrans
      (q.map (adapt_to_delay d))
    refine ⟨hheap, ?_⟩
    intro x hx
    have hx2 : x ∈ q.map (adapt_to_delay d) := hperm.subset hx
    obtain ⟨y, hy, rfl⟩ := List.mem_map.mp hx2
    rw [adapt_isSome]
    exact hs y hy

/-- C3: for every sequence of register, pop-and-reinsert and shift-all
operations from the empty queue, the task at index 0 of the queue has a
`nextExecution` at most that of every queued task. -/
theorem c3_peek_minimal (q : List RecurringTask) (hq : Reachable q) :
    ∀ t ∈ q, ∀ x y, (q.getD 0 default).next_execution = some x →
      t.next_execution = some y → x ≤ y := by
  obtain ⟨hh, _⟩ := reachable_invariant q hq
  intro t ht x y hx hy
  obtain ⟨i, hi, hti⟩ := List.mem_iff_getElem.mp ht
  have hroot := isHeap_root_min taskLt_irrefl taskLt_negtrans hh i hi
  rw [getD_eq_of_lt _ _ _ hi, hti] at hroot
  unfold taskLt at hroot
  rw [hx, hy] at hroot
  simp only [optLt, decide_eq_false_iff_not, not_lt] at hroot
  exact hroot

set_option maxRecDepth 8000 in
/-- Witness for C3: a queue reached by registering two tasks; the peeked
timestamp 3 is at most the other queued timestamp 5. -/
theorem c3_peek_minimal_witness : (3 : ℚ) ≤ 5 := by
  have hq2 : add_recurring_task 5 { name := "b" } (add_recurring_task 3 { name := "a" } [])
      = [{ name := "a", next_execution := some 3 },
         { name := "b", next_execution := some 5 }] := by
    simp [add_recurring_task, compute_next_execution_time, heappush, siftdownAux,
      taskLt, optLt]
    norm_num
  exact c3_peek_minimal _
    (Reachable.register 5 _ _ (Reachable.register 3 _ _ Reachable.empty))
    { name := "b", next_execution := some 5 }
    (by rw [hq2]; exact List.Mem.tail _ (List.Mem.head _))
    3 5 (by rw [hq2]; rfl) rfl

/-! ## The event loop (`BaseApp.event_queue`)

One iteration of the outer `while` loop, as a function of the wall-clock
instants it observes: `t0` is `utcnow()` at the top of the iteration
(line 210) and `t1` is `utcnow()` after the sleep (lines 246 and 259; the
model treats handler execution as instantaneous, so the whole catch-up
drain observes the single instant `t1`).

Observable effects are recorded as a trace of events:
`overslept d` is the `track_downtime` call of the waking step (line 250),
`executed t` is a handler invocation (line 270) recording the popped task,
`taskDelay t d` is the `track_downtime` call of the catch-up gate
(line 275), and `reported n` is the `handle_downtime` call (line 281). -/

inductive Event
  | overslept (d : ℚ)
  | executed (t : RecurringTask)
  | taskDelay (t : RecurringTask) (d : ℚ)
  | reported (n : ℤ)
deriving Repr, DecidableEq

/-- The mutable scheduler state: `_recurring_tasks` and `_downtime`. -/
structure AppState where
  tasks : List RecurringTask
  downtime : ℚ
deriving Repr, DecidableEq

/-- `BaseApp.track_downtime` (`base_app.py:304`): add the delay to the
downtime accumulator and shift all queued tasks by it. -/
def track_downtime (p_downtime : ℚ) (st : AppState) : AppState :=
  { tasks := adapt_active_recurring_tasks p_downtime st.tasks,
    downtime := st.downtime + p_downtime }

/-- Result of the catch-up drain: `ok` when the inner `while` exits
normally, `exc` when a task handler raised (the exception propagates out
of the inner loop to the handler at line 291). -/
inductive DrainResult
  | ok (st : AppState) (evs : List Event)
  | exc (st : AppState) (evs : List Event)
deriving Repr, DecidableEq

/-- Prefix the event trace of a drain result. -/
def consEvents (pre : List Event) : Option DrainResult → Option DrainResult
  | none => none
  | some (.ok st evs) => some (.ok st (pre ++ evs))
  | some (.exc st evs) => some (.exc st (pre ++ evs))

/-- The catch-up loop (`base_app.py:256-278`): while the earliest task's
`next_execution` is strictly before `now` (`if now > task`), pop it,
reinsert it via `add_recurring_task`, run its handler, and track downtime
if its delay exceeds `minimum_downtime_duration`. `fuel` bounds the number
of iterations; `none` means the bound was hit. -/
def drain (minDowntime now : ℚ) : ℕ → AppState → Option DrainResult
  | 0, _ => none
  | fuel + 1, st =>
    match st.tasks with
    | [] => some (.ok st [])
    | task :: _ =>
      if optLt task.next_execution (some now) = true then
        match heappop taskLt st.tasks with
        | none => some (.ok st [])
        | some (popped, rest) =>
          if popped.handler_fails then
            some (.exc { st with tasks := add_recurring_task now popped rest }
              [Event.executed popped])
          else if minDowntime < now - popped.next_execution.getD 0 then
            consEvents [Event.executed popped,
                Event.taskDelay popped (now - popped.next_execution.getD 0)]
              (drain minDowntime now fuel
                (track_downtime (now - popped.next_execution.getD 0)
                  { st with tasks := add_recurring_task now popped rest }))
          else
            consEvents [Event.executed popped]
              (drain minDowntime now fuel
                { st with tasks := add_recurring_task now popped rest })
      else some (.ok st [])

/-- The reporting step (`base_app.py:280-282` with `reset_down_time`,
`base_app.py:132`): if the accumulator is positive, report
`int(self._downtime)` and reset the accumulator to zero. -/
def reportStep (st : AppState) : AppState × List Event :=
  if 0 < st.downtime then
    ({ st with downtime := 0 }, [Event.reported (pyInt st.downtime)])
  else (st, [])

/-- Result of one outer-loop iteration: final state, trace, and whether an
exception escaped the drain (to be caught at line 291). -/
structure CycleResult where
  st : AppState
  evs : List Event
  exc : Bool
deriving Repr, DecidableEq

/-- One iteration of the outer loop of `BaseApp.event_queue`
(`base_app.py:207-302`): compute the wait at `t0`; if positive, sleep, and
after waking (at `t1`) track oversleep beyond `maximum_timer_slack` for the
task that was pending; then drain all due tasks at `t1` and report
accumulated downtime. Signal-interruption and the sleep itself are real
time, outside the model. -/
def cycle (slack minDowntime : ℚ) (t0 t1 : ℚ) (fuel : ℕ) (st : AppState) :
    Option CycleResult :=
  match st.tasks with
  | [] => some ⟨st, [], false⟩
  | task :: _ =>
    if 0 < task.next_execution.getD 0 - t0 ∧
        slack < t1 - task.next_execution.getD 0 then
      match drain minDowntime t1 fuel
        (track_downtime (t1 - task.next_execution.getD 0) st) with
      | none => none
      | some (.exc st2 evs2) =>
        some ⟨st2, Event.overslept (t1 - task.next_execution.getD 0) :: evs2, true⟩
      | some (.ok st2 evs2) =>
        some ⟨(reportStep st2).1,
          Event.overslept (t1 - task.next_execution.getD 0) :: evs2 ++ (reportStep st2).2,
          false⟩
    else
      match drain minDowntime t1 fuel st with
      | none => none
      | some (.exc st2 evs2) => some ⟨st2, evs2, true⟩
      | some (.ok st2 evs2) =>
        some ⟨(reportStep st2).1, evs2 ++ (reportStep st2).2, false⟩

/-- Continuation of the outer loop after one iteration
(`base_app.py:285-302`): a handler exception aborts the loop only in
debug mode; `--single-run` always stops after one iteration. -/
def loop_continues (debug_mode single_run exc : Bool) : Bool :=
  !single_run && !(exc && debug_mode)

def DrainResult.state : DrainResult → AppState
  | .ok st _ => st
  | .exc st _ => st

def DrainResult.events : DrainResult → List Event
  | .ok _ evs => evs
  | .exc _ evs => evs

/-- The amounts passed to `track_downtime` along a trace. -/
def trackedSum (evs : List Event) : ℚ :=
  (evs.map fun e =>
    match e with
    | .taskDelay _ d => d
    | .overslept d => d
    | _ => 0).sum

/-- The popped tasks of the handler invocations along a trace, in order. -/
def executedTasks (evs : List Event) : List RecurringTask :=
  evs.filterMap fun e =>
    match e with
    | .executed t => some t
    | _ => none

/-- The due timestamps of the handler invocations along a trace, in order. -/
def execKeys (evs : List Event) : List ℚ :=
  evs.filterMap fun e =>
    match e with
    | .executed t => t.next_execution
    | _ => none

theorem consEvents_eq_some {pre : List Event} {r : Option DrainResult} {res : DrainResult}
    (h : consEvents pre r = some res) :
    ∃ res0, r = some res0 ∧ res.state = res0.state ∧ res.events = pre ++ res0.events := by
  cases r with
  | none => exact absurd h (by simp [consEvents])
  | some res0 =>
    cases res0 with
    | ok st evs =>
      refine ⟨.ok st evs, rfl, ?_, ?_⟩ <;>
        (simp [consEvents] at h; rw [← h]) <;> rfl
    | exc st evs =>
      refine ⟨.exc st evs, rfl, ?_, ?_⟩ <;>
        (simp [consEvents] at h; rw [← h]) <;> rfl

/-- During the catch-up drain only handler invocations and gate-triggered
`track_downtime` calls occur, and every tracked per-task delay strictly
exceeds `minimum_downtime_duration`. -/
theorem drain_events_shape (m now : ℚ) :
    ∀ (fuel : ℕ) (st : AppState) (res : DrainResult),
      drain m now fuel st = some res →
      ∀ e ∈ res.events, (∃ t, e = .executed t) ∨ ∃ t d, e = .taskDelay t d ∧ m < d
  | 0, st, res, h => by simp [drain] at h
  | fuel + 1, st, res, h => by
    rw [drain] at h
    match hq : st.tasks with
    | [] =>
      rw [hq] at h
      simp only [] at h
      have hres := Option.some.inj h
      subst hres
      intro e he
      exact absurd he (by simp [DrainResult.events])
    | task :: rest0 =>
      rw [hq] at h
      simp only [] at h
      by_cases hdue : optLt task.next_execution (some now) = true
      · rw [if_pos hdue] at h
        match hpop : heappop taskLt (task :: rest0) with
        | none =>
          rw [hpop] at h
          simp only [] at h
          have hres := Option.some.inj h
          subst hres
          intro e he
          exact absurd he (by simp [DrainResult.events])
        | some (popped, rest) =>
          rw [hpop] at h
          simp only [] at h
          by_cases hfail : popped.handler_fails = true
          · rw [if_pos hfail] at h
            have hres := Option.some.inj h
            subst hres
            intro e he
            simp only [DrainResult.events, List.mem_singleton] at he
            exact Or.inl ⟨popped, he⟩
          · rw [if_neg hfail] at h
            by_cases hgate : m < now - popped.next_execution.getD 0
            · rw [if_pos hgate] at h
              obtain ⟨res0, hr0, hstate, hevs⟩ := consEvents_eq_some h
              intro e he
              rw [hevs] at he
              rcases List.mem_append.mp he with he | he
              · rcases List.mem_cons.mp he with he | he
                · exact Or.inl ⟨popped, he⟩
                · simp only [List.mem_singleton] at he
                  exact Or.inr ⟨popped, _, he, hgate⟩
              · exact drain_events_shape m now fuel _ res0 hr0 e he
            · rw [if_neg hgate] at h
              obtain ⟨res0, hr0, hstate, hevs⟩ := consEvents_eq_some h
              intro e he
              rw [hevs] at he
              rcases List.mem_append.mp he with he | he
              · simp only [List.mem_singleton] at he
                exact Or.inl ⟨popped, he⟩
              · exact drain_events_shape m now fuel _ res0 hr0 e he
      · rw [if_neg hdue] at h
        have hres := Option.some.inj h
        subst hres
        intro e he
        exact absurd he (by simp [DrainResult.events])

/-- Downtime accounting for the drain: the accumulator grows by exactly the
sum of the tracked per-task delays. -/
theorem drain_downtime (m now : ℚ) :
    ∀ (fuel : ℕ) (st : AppState) (res : DrainResult),
      drain m now fuel st = some res →
      res.state.downtime = st.downtime + trackedSum res.events
  | 0, st, res, h => by simp [drain] at h
  | fuel + 1, st, res, h => by
    rw [drain] at h
    match hq : st.tasks with
    | [] =>
      rw [hq] at h
      simp only [] at h
      have hres := Option.some.inj h
      subst hres
      simp [DrainResult.state, DrainResult.events, trackedSum]
    | task :: rest0 =>
      rw [hq] at h
      simp only [] at h
      by_cases hdue : optLt task.next_execution (some now) = true
      · rw [if_pos hdue] at h
        match hpop : heappop taskLt (task :: rest0) with
        | none =>
          rw [hpop] at h
          simp only [] at h
          have hres := Option.some.inj h
          subst hres
          simp [DrainResult.state, DrainResult.events, trackedSum]
        | some (popped, rest) =>
          rw [hpop] at h
          simp only [] at h
          by_cases hfail : popped.handler_fails = true
          · rw [if_pos hfail] at h
            have hres := Option.some.inj h
            subst hres
            simp [DrainResult.state, DrainResult.events, trackedSum]
          · rw [if_neg hfail] at h
            by_cases hgate : m < now - popped.next_execution.getD 0
            · rw [if_pos hgate] at h
              obtain ⟨res0, hr0, hstate, hevs⟩ := consEvents_eq_some h
              have ih := drain_downtime m now fuel _ res0 hr0
              rw [hstate, hevs, ih]
              simp [track_downtime, trackedSum]
              ring
            · rw [if_neg hgate] at h
              obtain ⟨res0, hr0, hstate, hevs⟩ := consEvents_eq_some h
              have ih := drain_downtime m now fuel _ res0 hr0
              rw [hstate, hevs, ih]
              simp [trackedSum]
      · rw [if_neg hdue] at h
        have hres := Option.some.inj h
        subst hres
        simp [DrainResult.state, DrainResult.events, trackedSum]

theorem compute_next_key (now : ℚ) (t : RecurringTask) (x : ℚ)
    (hx : t.next_execution = some x) :
    (compute_next_execution_time now t).next_execution =
      some (if t.fixed_schedule = true then x + t.interval else now + t.interval) := by
  unfold compute_next_execution_time
  rw [hx]
  by_cases hf : t.fixed_schedule = true <;> simp [hf]

theorem compute_next_fields (now : ℚ) (t : RecurringTask) :
    (compute_next_execution_time now t).interval = t.interval ∧
    (compute_next_execution_time now t).fixed_schedule = t.fixed_schedule ∧
    (compute_next_execution_time now t).handler_fails = t.handler_fails := by
  unfold compute_next_execution_time
  cases t.next_execution
  · exact ⟨rfl, rfl, rfl⟩
  · by_cases hf : t.fixed_schedule = true <;> simp [hf]

theorem adapt_key (d : ℚ) (t : RecurringTask) (x : ℚ) (hx : t.next_execution = some x) :
    (adapt_to_delay d t).next_execution = some (x + d) := by
  unfold adapt_to_delay
  rw [hx]

theorem adapt_fields (d : ℚ) (t : RecurringTask) :
    (adapt_to_delay d t).interval = t.interval ∧
    (adapt_to_delay d t).fixed_schedule = t.fixed_schedule ∧
    (adapt_to_delay d t).handler_fails = t.handler_fails := by
  unfold adapt_to_delay
  cases t.next_execution
  · exact ⟨rfl, rfl, rfl⟩
  · exact ⟨rfl, rfl, rfl⟩

/-- In a heap of tasks the root's timestamp bounds every queued timestamp. -/
theorem heap_root_le (q : List RecurringTask) (hh : IsHeap taskLt q) (kt : ℚ)
    (hkt : (q.getD 0 default).next_execution = some kt) :
    ∀ t ∈ q, ∀ y, t.next_execution = some y → kt ≤ y := by
  intro t ht y hy
  obtain ⟨i, hi, hti⟩ := List.mem_iff_getElem.mp ht
  have hroot := isHeap_root_min taskLt_irrefl taskLt_negtrans hh i hi
  rw [getD_eq_of_lt _ _ _ hi, hti] at hroot
  unfold taskLt at hroot
  rw [hkt, hy] at hroot
  simp only [optLt, decide_eq_false_iff_not, not_lt] at hroot
  exact hroot

theorem add_recurring_task_perm (now : ℚ) (t : RecurringTask) (q : List RecurringTask)
    (hh : IsHeap taskLt q) :
    (add_recurring_task now t q).Perm (compute_next_execution_time now t :: q) :=
  (heappush_spec taskLt_irrefl taskLt_trans taskLt_negtrans q
    (compute_next_execution_time now t) hh).2.2

theorem adapt_active_perm (d : ℚ) (q : List RecurringTask) :
    (adapt_active_recurring_tasks d q).Perm (q.map (adapt_to_delay d)) :=
  (heapify_spec taskLt_irrefl taskLt_trans taskLt_negtrans (q.map (adapt_to_delay d))).2.2

theorem adapt_active_isHeap (d : ℚ) (q : List RecurringTask) :
    IsHeap taskLt (adapt_active_recurring_tasks d q) :=
  (heapify_spec taskLt_irrefl taskLt_trans taskLt_negtrans (q.map (adapt_to_delay d))).2.1

/-- The step facts common to the drain lemmas: in a non-empty heap queue,
popping returns the head, and reinserting its next occurrence preserves the
heap shape, the set-timestamps invariant, non-negative intervals, and a
lower bound on all queued timestamps. -/
theorem drain_step_facts (now : ℚ) (st : AppState) (task : RecurringTask)
    (rest0 : List RecurringTask) (popped : RecurringTask) (rest : List RecurringTask)
    (hq : st.tasks = task :: rest0)
    (hh : IsHeap taskLt st.tasks) (hs : AllSome st.tasks)
    (hint : ∀ t ∈ st.tasks, 0 ≤ t.interval)
    (kt : ℚ) (hkt : task.next_execution = some kt) (hktnow : kt < now)
    (hpop : heappop taskLt st.tasks = some (popped, rest)) :
    popped = task ∧
    (compute_next_execution_time now task :: rest).Perm
      (compute_next_execution_time now task :: rest0) ∧
    IsHeap taskLt (add_recurring_task now popped rest) ∧
    AllSome (add_recurring_task now popped rest) ∧
    (∀ t ∈ add_recurring_task now popped rest, 0 ≤ t.interval) ∧
    (∀ t ∈ add_recurring_task now popped rest, ∀ x, t.next_execution = some x → kt ≤ x) ∧
    (add_recurring_task now popped rest).Perm
      (compute_next_execution_time now task :: rest0) := by
  have hne : st.tasks ≠ [] := by rw [hq]; simp
  obtain ⟨q2, hpop2, hheap2, hperm2, _⟩ :=
    heappop_spec taskLt_irrefl taskLt_trans taskLt_negtrans st.tasks hh hne
  rw [hpop2] at hpop
  have hpair := Option.some.inj hpop
  have hp1 : st.tasks.getD 0 default = popped := congrArg Prod.fst hpair
  have hp2 : q2 = rest := congrArg Prod.snd hpair
  have hgd : st.tasks.getD 0 default = task := by rw [hq]; rfl
  have hpt : popped = task := by rw [← hp1, hgd]
  have hrest_sub : ∀ t ∈ rest, t ∈ st.tasks := by
    intro t ht
    rw [← hp2] at ht
    exact hperm2.subset (List.mem_cons_of_mem _ ht)
  have hheap_rest : IsHeap taskLt rest := hp2 ▸ hheap2
  have hsome_rest : AllSome rest := fun t ht => hs t (hrest_sub t ht)
  have hroot := heap_root_le st.tasks hh kt (hgd ▸ hkt)
  have hperm_rest : (task :: rest).Perm st.tasks := by
    rw [← hp2, ← hgd]
    exact hperm2
  have hperm_rest0 : (task :: rest).Perm (task :: rest0) := by
    rw [hq] at hperm_rest
    exact hperm_rest
  have hrest_perm : rest.Perm rest0 := hperm_rest0.cons_inv
  obtain ⟨hheap3, hsome3⟩ := add_recurring_task_invariant now popped rest hheap_rest hsome_rest
  have hpush_perm : (add_recurring_task now popped rest).Perm
      (compute_next_execution_time now task :: rest) := by
    rw [hpt]
    exact add_recurring_task_perm now task rest hheap_rest
  have hmem3 : ∀ t ∈ add_recurring_task now popped rest,
      t = compute_next_execution_time now task ∨ t ∈ rest := by
    intro t ht
    have := hpush_perm.subset ht
    exact List.mem_cons.mp this
  refine ⟨hpt, hrest_perm.cons _, hheap3, hsome3, ?_, ?_, ?_⟩
  · intro t ht
    rcases hmem3 t ht with h | h
    · rw [h, (compute_next_fields now task).1]
      exact hint task (by rw [hq]; exact List.Mem.head _)
    · exact hint t (hrest_sub t h)
  · intro t ht x hx
    rcases hmem3 t ht with h | h
    · rw [h] at hx
      rw [compute_next_key now task kt hkt] at hx
      have hx2 := Option.some.inj hx
      have hi : 0 ≤ task.interval := hint task (by rw [hq]; exact List.Mem.head _)
      by_cases hf : task.fixed_schedule = true
      · rw [if_pos hf] at hx2
        rw [← hx2]
        linarith
      · rw [if_neg hf] at hx2
        rw [← hx2]
        linarith
    · exact hroot t (hrest_sub t h) x hx
  · exact hpush_perm.trans (hrest_perm.cons _)

theorem execKeys_nil : execKeys [] = [] := rfl

theorem execKeys_executed_cons (t : RecurringTask) (k : ℚ) (evs : List Event)
    (ht : t.next_execution = some k) :
    execKeys (Event.executed t :: evs) = k :: execKeys evs := by
  simp [execKeys, List.filterMap_cons, ht]

theorem execKeys_taskDelay_cons (t : RecurringTask) (d : ℚ) (evs : List Event) :
    execKeys (Event.taskDelay t d :: evs) = execKeys evs := by
  simp [execKeys, List.filterMap_cons]

/-- Execution order during the drain: the due timestamps of successive
handler invocations are non-decreasing, and all of them dominate any lower
bound on the queued timestamps. -/
theorem drain_sorted (m now : ℚ) :
    ∀ (fuel : ℕ) (st : AppState) (res : DrainResult) (b : ℚ),
      drain m now fuel st = some res →
      IsHeap taskLt st.tasks → AllSome st.tasks →
      (∀ t ∈ st.tasks, 0 ≤ t.interval) →
      (∀ t ∈ st.tasks, ∀ x, t.next_execution = some x → b ≤ x) →
      List.Sorted (· ≤ ·) (execKeys res.events) ∧ ∀ k ∈ execKeys res.events, b ≤ k
  | 0, st, res, b, h, _, _, _, _ => by simp [drain] at h
  | fuel + 1, st, res, b, h, hh, hs, hint, hb => by
    rw [drain] at h
    match hq : st.tasks with
    | [] =>
      rw [hq] at h
      simp only [] at h
      have hres := Option.some.inj h
      subst hres
      refine ⟨by simp [DrainResult.events, execKeys], fun k hk => ?_⟩
      exact absurd hk (by simp [DrainResult.events, execKeys])
    | task :: rest0 =>
      rw [hq] at h
      simp only [] at h
      have htaskmem : task ∈ st.tasks := by rw [hq]; exact List.Mem.head _
      obtain ⟨kt, hkt⟩ := Option.isSome_iff_exists.mp (hs task htaskmem)
      by_cases hdue : optLt task.next_execution (some now) = true
      · rw [if_pos hdue] at h
        have hktnow : kt < now := by
          rw [hkt] at hdue
          simpa [optLt] using hdue
        have hbkt : b ≤ kt := hb task htaskmem kt hkt
        match hpop : heappop taskLt (task :: rest0) with
        | none =>
          rw [hpop] at h
          simp only [] at h
          have hres := Option.some.inj h
          subst hres
          refine ⟨by simp [DrainResult.events, execKeys], fun k hk => ?_⟩
          exact absurd hk (by simp [DrainResult.events, execKeys])
        | some (popped, rest) =>
          rw [hpop] at h
          simp only [] at h
          have hpop2 : heappop taskLt st.tasks = some (popped, rest) := by
            rw [hq]
            exact hpop
          obtain ⟨hpt, _, hheap3, hsome3, hint3, hlow3, _⟩ :=
            drain_step_facts now st task rest0 popped rest hq hh hs hint kt hkt hktnow hpop2
          have hpk : popped.next_execution = some kt := by rw [hpt]; exact hkt
          by_cases hfail : popped.handler_fails = true
          · rw [if_pos hfail] at h
            have hres := Option.some.inj h
            subst hres
            rw [show (DrainResult.exc { st with tasks := add_recurring_task now popped rest }
              [Event.executed popped]).events = [Event.executed popped] from rfl]
            rw [execKeys_executed_cons popped kt [] hpk, execKeys_nil]
            refine ⟨by simp, fun k hk => ?_⟩
            simp only [List.mem_singleton] at hk
            rw [hk]
            exact hbkt
          · rw [if_neg hfail] at h
            have hdelay : now - popped.next_execution.getD 0 = now - kt := by rw [hpk]; rfl
            by_cases hgate : m < now - popped.next_execution.getD 0
            · rw [if_pos hgate] at h
              obtain ⟨res0, hr0, hstate, hevs⟩ := consEvents_eq_some h
              have hq3 : (track_downtime (now - popped.next_execution.getD 0)
                  { st with tasks := add_recurring_task now popped rest }).tasks
                  = adapt_active_recurring_tasks (now - kt)
                      (add_recurring_task now popped rest) := by
                rw [track_downtime, hdelay]
              have hsub : ∀ t ∈ adapt_active_recurring_tasks (now - kt)
                    (add_recurring_task now popped rest),
                  ∃ y ∈ add_recurring_task now popped rest, t = adapt_to_delay (now - kt) y := by
                intro t ht
                have := (adapt_active_perm (now - kt) _).subset ht
                obtain ⟨y, hy, hyt⟩ := List.mem_map.mp this
                exact ⟨y, hy, hyt.symm⟩
              obtain ⟨hsort0, hlow0⟩ := drain_sorted m now fuel _ res0 kt hr0
                (by rw [hq3]; exact adapt_active_isHeap _ _)
                (by
                  rw [hq3]
                  intro t ht
                  obtain ⟨y, hy, rfl⟩ := hsub t ht
                  rw [adapt_isSome]
                  exact hsome3 y hy)
                (by
                  rw [hq3]
                  intro t ht
                  obtain ⟨y, hy, rfl⟩ := hsub t ht
                  rw [(adapt_fields _ y).1]
                  exact hint3 y hy)
                (by
                  rw [hq3]
                  intro t ht x hx
                  obtain ⟨y, hy, rfl⟩ := hsub t ht
                  obtain ⟨xy, hxy⟩ := Option.isSome_iff_exists.mp (hsome3 y hy)
                  rw [adapt_key _ y xy hxy] at hx
                  have := Option.some.inj hx
                  have hky : kt ≤ xy := hlow3 y hy xy hxy
                  rw [← this]
                  linarith)
              rw [hevs]
              simp only [List.cons_append, List.nil_append]
              rw [execKeys_executed_cons popped kt _ hpk, execKeys_taskDelay_cons]
              constructor
              · rw [List.sorted_cons]
                exact ⟨fun k hk => le_trans (le_refl kt) (hlow0 k hk), hsort0⟩
              · intro k hk
                rcases List.mem_cons.mp hk with hk | hk
                · rw [hk]; exact hbkt
                · exact le_trans hbkt (hlow0 k hk)
            · rw [if_neg hgate] at h
              obtain ⟨res0, hr0, hstate, hevs⟩ := consEvents_eq_some h
              obtain ⟨hsort0, hlow0⟩ := drain_sorted m now fuel _ res0 kt hr0
                hheap3 hsome3 hint3 hlow3
              rw [hevs]
              simp only [List.cons_append, List.nil_append]
              rw [execKeys_executed_cons popped kt _ hpk]
              constructor
              · rw [List.sorted_cons]
                exact ⟨fun k hk => hlow0 k hk, hsort0⟩
              · intro k hk
                rcases List.mem_cons.mp hk with hk | hk
                · rw [hk]; exact hbkt
                · exact le_trans hbkt (hlow0 k hk)
      · rw [if_neg hdue] at h
        have hres := Option.some.inj h
        subst hres
        refine ⟨by simp [DrainResult.events, execKeys], fun k hk => ?_⟩
        exact absurd hk (by simp [DrainResult.events, execKeys])

/-- The loop condition of the catch-up drain (`if now > task`): the task's
`next_execution` is strictly earlier than `now`. -/
def isDue (now : ℚ) (t : RecurringTask) : Bool := optLt t.next_execution (some now)

theorem executedTasks_executed_cons (t : RecurringTask) (evs : List Event) :
    executedTasks (Event.executed t :: evs) = t :: executedTasks evs := by
  simp [executedTasks, List.filterMap_cons]

/-- Pop-and-reinsert without ordering bookkeeping: the popped task is the
head, and the reinserted queue is a heap of set-timestamp tasks permuting
the next occurrence of the head with the remaining tasks. -/
theorem drain_step_core (now : ℚ) (st : AppState) (task : RecurringTask)
    (rest0 : List RecurringTask) (popped : RecurringTask) (rest : List RecurringTask)
    (hq : st.tasks = task :: rest0)
    (hh : IsHeap taskLt st.tasks) (hs : AllSome st.tasks)
    (hpop : heappop taskLt st.tasks = some (popped, rest)) :
    popped = task ∧
    rest.Perm rest0 ∧
    IsHeap taskLt (add_recurring_task now popped rest) ∧
    AllSome (add_recurring_task now popped rest) ∧
    (add_recurring_task now popped rest).Perm
      (compute_next_execution_time now task :: rest0) := by
  have hne : st.tasks ≠ [] := by rw [hq]; simp
  obtain ⟨q2, hpop2, hheap2, hperm2, _⟩ :=
    heappop_spec taskLt_irrefl taskLt_trans taskLt_negtrans st.tasks hh hne
  rw [hpop2] at hpop
  have hpair := Option.some.inj hpop
  have hp1 : st.tasks.getD 0 default = popped := congrArg Prod.fst hpair
  have hp2 : q2 = rest := congrArg Prod.snd hpair
  have hgd : st.tasks.getD 0 default = task := by rw [hq]; rfl
  have hpt : popped = task := by rw [← hp1, hgd]
  have hrest_sub : ∀ t ∈ rest, t ∈ st.tasks := by
    intro t ht
    rw [← hp2] at ht
    exact hperm2.subset (List.mem_cons_of_mem _ ht)
  have hheap_rest : IsHeap taskLt rest := hp2 ▸ hheap2
  have hsome_rest : AllSome rest := fun t ht => hs t (hrest_sub t ht)
  have hperm_rest0 : (task :: rest).Perm (task :: rest0) := by
    have hp3 : (task :: rest).Perm st.tasks := by
      rw [← hp2, ← hgd]
      exact hperm2
    rw [hq] at hp3
    exact hp3
  have hrest_perm : rest.Perm rest0 := hperm_rest0.cons_inv
  obtain ⟨hheap3, hsome3⟩ := add_recurring_task_invariant now popped rest hheap_rest hsome_rest
  have hpush_perm : (add_recurring_task now popped rest).Perm
      (compute_next_execution_time now task :: rest) := by
    rw [hpt]
    exact add_recurring_task_perm now task rest hheap_rest
  exact ⟨hpt, hrest_perm, hheap3, hsome3, hpush_perm.trans (hrest_perm.cons _)⟩

/-- Completeness of the catch-up drain when nothing disturbs it: if no due
task's handler fails, no due task's delay exceeds
`minimum_downtime_duration`, and no reinserted occurrence is due again,
then with sufficient fuel the drain terminates normally, executes exactly
the due tasks, leaves the queue holding their next occurrences together
with the untouched non-due tasks, and accumulates no downtime. -/
theorem drain_complete (m now : ℚ) :
    ∀ (fuel : ℕ) (st : AppState),
      IsHeap taskLt st.tasks → AllSome st.tasks →
      (st.tasks.filter (isDue now)).length < fuel →
      (∀ t ∈ st.tasks, isDue now t = true →
        t.handler_fails = false ∧ now - t.next_execution.getD 0 ≤ m ∧
        isDue now (compute_next_execution_time now t) = false) →
      ∃ st2 evs, drain m now fuel st = some (.ok st2 evs) ∧
        (executedTasks evs).Perm (st.tasks.filter (isDue now)) ∧
        st2.tasks.Perm ((st.tasks.filter (isDue now)).map (compute_next_execution_time now)
          ++ st.tasks.filter (fun t => !(isDue now t))) ∧
        st2.downtime = st.downtime ∧
        (∀ e ∈ evs, ∃ t, e = .executed t)
  | 0, st, _, _, hfuel, _ => absurd hfuel (by omega)
  | fuel + 1, st, hh, hs, hfuel, hok => by
    match hq : st.tasks with
    | [] =>
      refine ⟨st, [], ?_, ?_, ?_, rfl, by simp⟩
      · rw [drain, hq]
      · simp [executedTasks]
      · rw [hq]
        simp
    | task :: rest0 =>
      have htaskmem : task ∈ st.tasks := by rw [hq]; exact List.Mem.head _
      obtain ⟨kt, hkt⟩ := Option.isSome_iff_exists.mp (hs task htaskmem)
      by_cases hdue : optLt task.next_execution (some now) = true
      · have hne : st.tasks ≠ [] := by rw [hq]; simp
        obtain ⟨q2, hpop2, _, _, _⟩ :=
          heappop_spec taskLt_irrefl taskLt_trans taskLt_negtrans st.tasks hh hne
        obtain ⟨_, hrest_perm, hheap3, hsome3, hpush_perm⟩ :=
          drain_step_core now st task rest0 (st.tasks.getD 0 default) q2 hq hh hs hpop2
        have hgd : st.tasks.getD 0 default = task := by rw [hq]; rfl
        rw [hgd] at hpop2 hheap3 hsome3 hpush_perm
        obtain ⟨hfail, hdelay, hnotdue⟩ := hok task htaskmem hdue
        -- the state after pop-and-reinsert
        have hcnp_notdue : isDue now (compute_next_execution_time now task) = false := hnotdue
        have hfilter_st2 : ((add_recurring_task now task q2).filter (isDue now)).Perm
            (rest0.filter (isDue now)) := by
          have h1 := hpush_perm.filter (isDue now)
          rw [List.filter_cons] at h1
          rw [hcnp_notdue] at h1
          simpa using h1
        have hfilter_st : st.tasks.filter (isDue now) = task :: rest0.filter (isDue now) := by
          rw [hq, List.filter_cons]
          have : isDue now task = true := hdue
          simp [this]
        have hih := drain_complete m now fuel
          { st with tasks := add_recurring_task now task q2 } hheap3 hsome3
          (by
            have hlen := hfilter_st2.length_eq
            have hlen2 : (st.tasks.filter (isDue now)).length
                = (rest0.filter (isDue now)).length + 1 := by
              rw [hfilter_st]
              rfl
            simp only []
            omega)
          (by
            intro t ht hdt
            rcases List.mem_cons.mp (hpush_perm.subset ht) with h | h
            · rw [h] at hdt
              rw [hcnp_notdue] at hdt
              exact absurd hdt (by simp)
            · exact hok t (by
                rw [hq]
                exact List.mem_cons_of_mem _ h) hdt)
        obtain ⟨st3, evs4, hdr, hexec4, hqueue4, hdt4, hshape4⟩ := hih
        refine ⟨st3, Event.executed task :: evs4, ?_, ?_, ?_, hdt4, ?_⟩
        · have hpop3 : heappop taskLt (task :: rest0) = some (task, q2) := by
            rw [← hq]
            exact hpop2
          rw [drain, hq]
          simp only []
          rw [if_pos hdue, hpop3]
          simp only []
          rw [if_neg (by rw [hfail]; simp)]
          have hdelay2 : ¬ m < now - task.next_execution.getD 0 := not_lt.mpr hdelay
          rw [if_neg hdelay2, hdr]
          rfl
        · rw [executedTasks_executed_cons, ← hq, hfilter_st]
          exact (hexec4.trans hfilter_st2).cons task
        · have hfilter_not_st : st.tasks.filter (fun t => !(isDue now t))
              = rest0.filter (fun t => !(isDue now t)) := by
            rw [hq, List.filter_cons]
            have hdt : isDue now task = true := hdue
            simp [hdt]
          have hfilter_not : ((add_recurring_task now task q2).filter
              (fun t => !(isDue now t))).Perm
              (compute_next_execution_time now task :: rest0.filter (fun t => !(isDue now t))) := by
            have h1 := hpush_perm.filter (fun t => !(isDue now t))
            rw [List.filter_cons] at h1
            rw [hcnp_notdue] at h1
            simpa using h1
          have h2 : st3.tasks.Perm
              (((add_recurring_task now task q2).filter (isDue now)).map
                  (compute_next_execution_time now)
                ++ (add_recurring_task now task q2).filter (fun t => !(isDue now t))) := hqueue4
          have h3 := List.Perm.append (hfilter_st2.map (compute_next_execution_time now))
            hfilter_not
          have h4 := h2.trans h3
          have h5 := @List.perm_middle _ (compute_next_execution_time now task)
            ((rest0.filter (isDue now)).map (compute_next_execution_time now))
            (rest0.filter (fun t => !(isDue now t)))
          rw [← hq, hfilter_st, hfilter_not_st]
          simp only [List.map_cons, List.cons_append]
          exact h4.trans h5
        · intro e he
          rcases List.mem_cons.mp he with h | h
          · exact ⟨task, h⟩
          · exact hshape4 e h
      · -- the head is not due: no task is due, the drain stops immediately
        have hktnow : now ≤ kt := by
          rw [hkt] at hdue
          simpa [optLt] using hdue
        have hroot := heap_root_le st.tasks hh kt (by
          rw [hq]
          exact hkt)
        have hnone : ∀ t ∈ st.tasks, isDue now t = false := by
          intro t ht
          obtain ⟨y, hy⟩ := Option.isSome_iff_exists.mp (hs t ht)
          have hky : kt ≤ y := hroot t ht y hy
          unfold isDue
          rw [hy]
          simp only [optLt, decide_eq_false_iff_not, not_lt]
          linarith
        have hfilter_nil : st.tasks.filter (isDue now) = [] := by
          rw [List.filter_eq_nil_iff]
          intro t ht
          rw [hnone t ht]
          simp
        refine ⟨st, [], ?_, ?_, ?_, rfl, by simp⟩
        · rw [drain, hq]
          simp only []
          rw [if_neg hdue]
        · rw [← hq, hfilter_nil]
          simp [executedTasks]
        · rw [← hq, hfilter_nil]
          have hfull : st.tasks.filter (fun t => !(isDue now t)) = st.tasks := by
            rw [List.filter_eq_self]
            intro t ht
            rw [hnone t ht]
            rfl
          rw [hfull]
          simp

/-! ## Step-evaluation lemmas for concrete drain runs -/

theorem drain_cons_stop (m now : ℚ) (fuel : ℕ) (task : RecurringTask)
    (tl : List RecurringTask) (d0 : ℚ)
    (hdue : optLt task.next_execution (some now) = false) :
    drain m now (fuel + 1) ⟨task :: tl, d0⟩ = some (.ok ⟨task :: tl, d0⟩ []) := by
  rw [drain]
  simp only []
  rw [if_neg (by rw [hdue]; simp)]

theorem drain_cons_nogate (m now : ℚ) (fuel : ℕ) (task popped : RecurringTask)
    (tl rest : List RecurringTask) (d0 : ℚ)
    (hdue : optLt task.next_execution (some now) = true)
    (hpop : heappop taskLt (task :: tl) = some (popped, rest))
    (hfail : popped.handler_fails = false)
    (hgate : ¬ m < now - popped.next_execution.getD 0) :
    drain m now (fuel + 1) ⟨task :: tl, d0⟩
      = consEvents [Event.executed popped]
          (drain m now fuel ⟨add_recurring_task now popped rest, d0⟩) := by
  rw [drain]
  simp only []
  rw [if_pos hdue, hpop]
  simp only []
  rw [if_neg (by rw [hfail]; simp), if_neg hgate]

theorem drain_cons_gate (m now : ℚ) (fuel : ℕ) (task popped : RecurringTask)
    (tl rest : List RecurringTask) (d0 : ℚ)
    (hdue : optLt task.next_execution (some now) = true)
    (hpop : heappop taskLt (task :: tl) = some (popped, rest))
    (hfail : popped.handler_fails = false)
    (hgate : m < now - popped.next_execution.getD 0) :
    drain m now (fuel + 1) ⟨task :: tl, d0⟩
      = consEvents [Event.executed popped,
            Event.taskDelay popped (now - popped.next_execution.getD 0)]
          (drain m now fuel
            ⟨adapt_active_recurring_tasks (now - popped.next_execution.getD 0)
                (add_recurring_task now popped rest),
              d0 + (now - popped.next_execution.getD 0)⟩) := by
  rw [drain]
  simp only []
  rw [if_pos hdue, hpop]
  simp only []
  rw [if_neg (by rw [hfail]; simp), if_pos hgate]
  rfl

/-- Short-hand for a non-fixed task with a set `next_execution`, used in the
concrete scheduler runs below. -/
def ceTask (n : String) (k : ℚ) : RecurringTask := { name := n, next_execution := some k }

/-- C1 (amended): the catch-up loop runs while the earliest task's
`nextExecution` is strictly less than the re-read current time (a task due
exactly at `now` is not executed), popping, reinserting and invoking each
due task; when additionally no due task's delay exceeds
`minimumDowntimeDuration` (whose mid-drain `track_downtime` would push the
remaining due tasks into the future), no due handler fails, and no
reinserted occurrence is due again, the single catch-up phase executes
exactly the strictly-due tasks, in ascending due-time order, and leaves the
queue holding only their next occurrences together with the untouched
not-yet-due tasks. -/
theorem c1_catch_up_drains_strictly_due (m now : ℚ) (fuel : ℕ) (st : AppState)
    (hh : IsHeap taskLt st.tasks) (hs : AllSome st.tasks)
    (hint : ∀ t ∈ st.tasks, 0 ≤ t.interval)
    (hfuel : (st.tasks.filter (isDue now)).length < fuel)
    (hok : ∀ t ∈ st.tasks, isDue now t = true →
      t.handler_fails = false ∧ now - t.next_execution.getD 0 ≤ m ∧
      isDue now (compute_next_execution_time now t) = false) :
    ∃ st2 evs, drain m now fuel st = some (.ok st2 evs) ∧
      (executedTasks evs).Perm (st.tasks.filter (isDue now)) ∧
      List.Sorted (· ≤ ·) (execKeys evs) ∧
      st2.tasks.Perm ((st.tasks.filter (isDue now)).map (compute_next_execution_time now)
        ++ st.tasks.filter (fun t => !(isDue now t))) ∧
      st2.downtime = st.downtime := by
  obtain ⟨st2, evs, hdr, hex, hq2, hdt, hshape⟩ := drain_complete m now fuel st hh hs hfuel hok
  have hsorted : List.Sorted (· ≤ ·) (execKeys evs) := by
    match hq : st.tasks with
    | [] =>
      have : evs = [] := by
        have h0 : (executedTasks evs).Perm [] := by
          rw [hq] at hex
          simpa using hex
        have h1 : executedTasks evs = [] := List.Perm.eq_nil h0
        rcases evs with _ | ⟨e, evs2⟩
        · rfl
        · obtain ⟨t, rfl⟩ := hshape e (List.Mem.head _)
          rw [executedTasks_executed_cons] at h1
          exact absurd h1 (by simp)
      rw [this]
      simp [execKeys]
    | task :: rest0 =>
      have htaskmem : task ∈ st.tasks := by rw [hq]; exact List.Mem.head _
      obtain ⟨kt, hkt⟩ := Option.isSome_iff_exists.mp (hs task htaskmem)
      have hb := heap_root_le st.tasks hh kt (by rw [hq]; exact hkt)
      have h2 := drain_sorted m now fuel st (.ok st2 evs) kt hdr hh hs hint hb
      exact h2.1
  exact ⟨st2, evs, hdr, hex, hsorted, hq2, hdt⟩

set_option maxRecDepth 400000 in
/-- Counterexample to C1 as stated. First, the loop condition is strict
(`if now > task`), not `nextExecution <= now`: a task due exactly at the
current time is not executed by the catch-up phase, which returns with no
handler invocation. Second, with the default configuration
(`minimum_downtime_duration = 20`) the spec's P6 scenario — three tasks due
30, 20 and 10 seconds ago — executes only the first task: its delay of 30
triggers `track_downtime`, which shifts the two remaining due tasks 30
seconds into the future, so they are no longer due and the phase ends. -/
theorem c1_counterexample :
    drain 20 0 1 ⟨[ceTask "a" 0], 0⟩ = some (.ok ⟨[ceTask "a" 0], 0⟩ []) ∧
    drain 20 0 2 ⟨[ceTask "t30" (-30), ceTask "t20" (-20), ceTask "t10" (-10)], 0⟩
      = some (.ok ⟨[ceTask "t20" 10, ceTask "t10" 20, ceTask "t30" 40], 30⟩
          [Event.executed (ceTask "t30" (-30)),
           Event.taskDelay (ceTask "t30" (-30)) 30]) ∧
    (executedTasks [Event.executed (ceTask "t30" (-30)),
        Event.taskDelay (ceTask "t30" (-30)) 30]).map RecurringTask.name = ["t30"] ∧
    (["t30"] : List String) ≠ ["t30", "t20", "t10"] := by
  have hPopA : heappop taskLt [ceTask "t30" (-30), ceTask "t20" (-20), ceTask "t10" (-10)]
      = some (ceTask "t30" (-30), [ceTask "t20" (-20), ceTask "t10" (-10)]) := by
    simp [heappop, siftupAux, siftupChild, siftdownAux, taskLt, optLt, ceTask]
    norm_num
  have hPushA : add_recurring_task 0 (ceTask "t30" (-30))
      [ceTask "t20" (-20), ceTask "t10" (-10)]
      = [ceTask "t20" (-20), ceTask "t10" (-10), ceTask "t30" 10] := by
    simp [add_recurring_task, compute_next_execution_time, heappush, siftdownAux,
      taskLt, optLt, ceTask, DEFAULT_TASK_INTERVAL]
    norm_num
  have hAdaptA : adapt_active_recurring_tasks 30
      [ceTask "t20" (-20), ceTask "t10" (-10), ceTask "t30" 10]
      = [ceTask "t20" 10, ceTask "t10" 20, ceTask "t30" 40] := by
    simp [adapt_active_recurring_tasks, adapt_to_delay, heapify, heapifyAux, siftupAux,
      siftupChild, siftdownAux, taskLt, optLt, ceTask]
    norm_num
  refine ⟨?_, ?_, by decide, by decide⟩
  · rw [show (1 : ℕ) = 0 + 1 from rfl,
      drain_cons_stop 20 0 0 (ceTask "a" 0) [] 0 (by decide)]
  · rw [show (2 : ℕ) = 1 + 1 from rfl,
      drain_cons_gate 20 0 1 (ceTask "t30" (-30)) (ceTask "t30" (-30))
        [ceTask "t20" (-20), ceTask "t10" (-10)] [ceTask "t20" (-20), ceTask "t10" (-10)]
        0 (by decide) hPopA (by decide) (by norm_num [ceTask])]
    rw [show (0 : ℚ) - (ceTask "t30" (-30)).next_execution.getD 0 = 30 from by
      norm_num [ceTask]]
    rw [hPushA, hAdaptA]
    rw [show (1 : ℕ) = 0 + 1 from rfl,
      drain_cons_stop 20 0 0 (ceTask "t20" 10) [ceTask "t10" 20, ceTask "t30" 40]
        (0 + 30) (by decide)]
    simp only [consEvents]
    norm_num

/-- Witness for the amended C1: two strictly-due tasks, a large enough
`minimum_downtime_duration`, healthy handlers. -/
theorem c1_catch_up_drains_strictly_due_witness :
    ∃ st2 evs, drain 40 0 3 ⟨[ceTask "a" (-30), ceTask "b" (-20)], 0⟩
        = some (.ok st2 evs) ∧
      (executedTasks evs).Perm ([ceTask "a" (-30), ceTask "b" (-20)].filter (isDue 0)) ∧
      List.Sorted (· ≤ ·) (execKeys evs) ∧
      st2.tasks.Perm (([ceTask "a" (-30), ceTask "b" (-20)].filter (isDue 0)).map
          (compute_next_execution_time 0)
        ++ [ceTask "a" (-30), ceTask "b" (-20)].filter (fun t => !(isDue 0 t))) ∧
      st2.downtime = (0 : ℚ) := by
  exact c1_catch_up_drains_strictly_due 40 0 3 ⟨[ceTask "a" (-30), ceTask "b" (-20)], 0⟩
    (by
      intro c hc0 hclen hcs
      simp only [List.length_cons, List.length_nil] at hclen
      have hc : c = 1 := by omega
      subst hc
      norm_num [taskLt, optLt, ceTask])
    (by
      intro t ht
      fin_cases ht <;> rfl)
    (by
      intro t ht
      fin_cases ht <;> norm_num [ceTask, DEFAULT_TASK_INTERVAL])
    (by norm_num [isDue, optLt, ceTask])
    (by
      intro t ht hdt
      fin_cases ht <;>
        exact ⟨rfl, by norm_num [ceTask],
          by norm_num [isDue, optLt, compute_next_execution_time, ceTask,
            DEFAULT_TASK_INTERVAL]⟩)

/-- C7 (amended): tasks due in the same wake cycle execute in ascending
due-time order — the recorded due timestamps of successive handler
invocations are non-decreasing, so a task is never executed before another
task whose due time (at its execution) is strictly earlier. Ties among
equal due times execute in an order determined by the heap's internal
layout, which is not in general the registration order. Non-negative
intervals are required: a task whose reinsertion moves it into the past
would re-execute at an earlier due time. -/
theorem c7_execution_order (m now : ℚ) (fuel : ℕ) (st : AppState) (res : DrainResult)
    (h : drain m now fuel st = some res)
    (hh : IsHeap taskLt st.tasks) (hs : AllSome st.tasks)
    (hint : ∀ t ∈ st.tasks, 0 ≤ t.interval) :
    List.Sorted (· ≤ ·) (execKeys res.events) ∧
    List.Pairwise (fun k1 k2 => ¬ k2 < k1) (execKeys res.events) := by
  have hsorted : List.Sorted (· ≤ ·) (execKeys res.events) := by
    match hfuel : fuel with
    | 0 => simp [drain] at h
    | fuel0 + 1 =>
      match hq : st.tasks with
      | [] =>
        rw [drain, hq] at h
        simp only [] at h
        have hres := Option.some.inj h
        subst hres
        simp [DrainResult.events, execKeys]
      | task :: rest0 =>
        have htaskmem : task ∈ st.tasks := by rw [hq]; exact List.Mem.head _
        obtain ⟨kt, hkt⟩ := Option.isSome_iff_exists.mp (hs task htaskmem)
        have hb := heap_root_le st.tasks hh kt (by rw [hq]; exact hkt)
        exact (drain_sorted m now (fuel0 + 1) st res kt h hh hs hint hb).1
  exact ⟨hsorted, hsorted.imp not_lt_of_ge⟩

set_option maxRecDepth 400000 in
/-- Counterexample to C7 as stated: four tasks registered in order
`a, b, c, d`, all with the same due timestamp, land in the queue in
registration order, but a single catch-up drain executes them in the order
`a, c, d, b` — `heapq` does not break ties by insertion order. -/
theorem c7_counterexample :
    (add_recurring_task 0 { name := "d" } (add_recurring_task 0 { name := "c" }
        (add_recurring_task 0 { name := "b" } (add_recurring_task 0 { name := "a" } []))))
      = [ceTask "a" 0, ceTask "b" 0, ceTask "c" 0, ceTask "d" 0] ∧
    (∃ st2, drain 20 1 5 ⟨[ceTask "a" 0, ceTask "b" 0, ceTask "c" 0, ceTask "d" 0], 0⟩
        = some (.ok st2
          [Event.executed (ceTask "a" 0), Event.executed (ceTask "c" 0),
           Event.executed (ceTask "d" 0), Event.executed (ceTask "b" 0)])) ∧
    (executedTasks [Event.executed (ceTask "a" 0), Event.executed (ceTask "c" 0),
        Event.executed (ceTask "d" 0), Event.executed (ceTask "b" 0)]).map RecurringTask.name
      = ["a", "c", "d", "b"] ∧
    (["a", "c", "d", "b"] : List String) ≠ ["a", "b", "c", "d"] := by
  have hReg : (add_recurring_task 0 { name := "d" } (add_recurring_task 0 { name := "c" }
      (add_recurring_task 0 { name := "b" } (add_recurring_task 0 { name := "a" } []))))
      = [ceTask "a" 0, ceTask "b" 0, ceTask "c" 0, ceTask "d" 0] := by
    simp [add_recurring_task, compute_next_execution_time, heappush, siftdownAux,
      taskLt, optLt, ceTask]
  have hPop1 : heappop taskLt [ceTask "a" 0, ceTask "b" 0, ceTask "c" 0, ceTask "d" 0]
      = some (ceTask "a" 0, [ceTask "c" 0, ceTask "b" 0, ceTask "d" 0]) := by
    simp [heappop, siftupAux, siftupChild, siftdownAux, taskLt, optLt, ceTask]
  have hPush1 : add_recurring_task 1 (ceTask "a" 0) [ceTask "c" 0, ceTask "b" 0, ceTask "d" 0]
      = [ceTask "c" 0, ceTask "b" 0, ceTask "d" 0, ceTask "a" 11] := by
    simp [add_recurring_task, compute_next_execution_time, heappush, siftdownAux,
      taskLt, optLt, ceTask, DEFAULT_TASK_INTERVAL]
    norm_num
  have hPop2 : heappop taskLt [ceTask "c" 0, ceTask "b" 0, ceTask "d" 0, ceTask "a" 11]
      = some (ceTask "c" 0, [ceTask "d" 0, ceTask "b" 0, ceTask "a" 11]) := by
    simp [heappop, siftupAux, siftupChild, siftdownAux, taskLt, optLt, ceTask]
  have hPush2 : add_recurring_task 1 (ceTask "c" 0) [ceTask "d" 0, ceTask "b" 0, ceTask "a" 11]
      = [ceTask "d" 0, ceTask "b" 0, ceTask "a" 11, ceTask "c" 11] := by
    simp [add_recurring_task, compute_next_execution_time, heappush, siftdownAux,
      taskLt, optLt, ceTask, DEFAULT_TASK_INTERVAL]
    norm_num
  have hPop3 : heappop taskLt [ceTask "d" 0, ceTask "b" 0, ceTask "a" 11, ceTask "c" 11]
      = some (ceTask "d" 0, [ceTask "b" 0, ceTask "c" 11, ceTask "a" 11]) := by
    simp [heappop, siftupAux, siftupChild, siftdownAux, taskLt, optLt, ceTask]
  have hPush3 : add_recurring_task 1 (ceTask "d" 0) [ceTask "b" 0, ceTask "c" 11, ceTask "a" 11]
      = [ceTask "b" 0, ceTask "c" 11, ceTask "a" 11, ceTask "d" 11] := by
    simp [add_recurring_task, compute_next_execution_time, heappush, siftdownAux,
      taskLt, optLt, ceTask, DEFAULT_TASK_INTERVAL]
    norm_num
  have hPop4 : heappop taskLt [ceTask "b" 0, ceTask "c" 11, ceTask "a" 11, ceTask "d" 11]
      = some (ceTask "b" 0, [ceTask "a" 11, ceTask "c" 11, ceTask "d" 11]) := by
    simp [heappop, siftupAux, siftupChild, siftdownAux, taskLt, optLt, ceTask]
  have hPush4 : add_recurring_task 1 (ceTask "b" 0) [ceTask "a" 11, ceTask "c" 11, ceTask "d" 11]
      = [ceTask "a" 11, ceTask "c" 11, ceTask "d" 11, ceTask "b" 11] := by
    simp [add_recurring_task, compute_next_execution_time, heappush, siftdownAux,
      taskLt, optLt, ceTask, DEFAULT_TASK_INTERVAL]
    norm_num
  refine ⟨hReg, ⟨⟨[ceTask "a" 11, ceTask "c" 11, ceTask "d" 11, ceTask "b" 11], 0⟩, ?_⟩,
    by decide, by decide⟩
  rw [show (5 : ℕ) = 4 + 1 from rfl,
    drain_cons_nogate 20 1 4 (ceTask "a" 0) (ceTask "a" 0) _ _ 0 (by decide) hPop1
      (by decide) (by norm_num [ceTask]),
    hPush1,
    show (4 : ℕ) = 3 + 1 from rfl,
    drain_cons_nogate 20 1 3 (ceTask "c" 0) (ceTask "c" 0) _ _ 0 (by decide) hPop2
      (by decide) (by norm_num [ceTask]),
    hPush2,
    show (3 : ℕ) = 2 + 1 from rfl,
    drain_cons_nogate 20 1 2 (ceTask "d" 0) (ceTask "d" 0) _ _ 0 (by decide) hPop3
      (by decide) (by norm_num [ceTask]),
    hPush3,
    show (2 : ℕ) = 1 + 1 from rfl,
    drain_cons_nogate 20 1 1 (ceTask "b" 0) (ceTask "b" 0) _ _ 0 (by decide) hPop4
      (by decide) (by norm_num [ceTask]),
    hPush4,
    show (1 : ℕ) = 0 + 1 from rfl,
    drain_cons_stop 20 1 0 (ceTask "a" 11) [ceTask "c" 11, ceTask "d" 11, ceTask "b" 11] 0
      (by decide)]
  rfl

/-- Witness for the amended C7 at a one-task drain. -/
theorem c7_execution_order_witness :
    List.Sorted (· ≤ ·) (execKeys (DrainResult.ok ⟨[ceTask "a" 11], 0⟩
        [Event.executed (ceTask "a" 0)]).events) ∧
    List.Pairwise (fun k1 k2 => ¬ k2 < k1) (execKeys (DrainResult.ok ⟨[ceTask "a" 11], 0⟩
        [Event.executed (ceTask "a" 0)]).events) := by
  have hPop : heappop taskLt [ceTask "a" 0] = some (ceTask "a" 0, []) := by
    simp [heappop]
  have hPush : add_recurring_task 1 (ceTask "a" 0) [] = [ceTask "a" 11] := by
    simp [add_recurring_task, compute_next_execution_time, heappush, siftdownAux,
      ceTask, DEFAULT_TASK_INTERVAL]
    norm_num
  have hdr : drain 20 1 2 ⟨[ceTask "a" 0], 0⟩
      = some (.ok ⟨[ceTask "a" 11], 0⟩ [Event.executed (ceTask "a" 0)]) := by
    rw [show (2 : ℕ) = 1 + 1 from rfl,
      drain_cons_nogate 20 1 1 (ceTask "a" 0) (ceTask "a" 0) [] [] 0 (by decide) hPop
        (by decide) (by norm_num [ceTask]),
      hPush,
      show (1 : ℕ) = 0 + 1 from rfl,
      drain_cons_stop 20 1 0 (ceTask "a" 11) [] 0 (by decide)]
    rfl
  exact c7_execution_order 20 1 2 ⟨[ceTask "a" 0], 0⟩ _ hdr
    (by
      intro c hc0 hclen hcs
      simp only [List.length_cons, List.length_nil] at hclen
      omega)
    (by intro t ht; fin_cases ht; rfl)
    (by
      intro t ht
      fin_cases ht
      norm_num [ceTask, DEFAULT_TASK_INTERVAL])

/-- C8: during catch-up a due task is popped and reinserted with its next
occurrence computed before its handler runs; if the handler then raises,
the inner loop aborts with the task already rescheduled — the queue holds
its next occurrence, the accumulator is untouched, and (in non-diagnostic,
non-single-run mode) the outer loop continues with the next cycle. -/
theorem c8_reschedule_before_handler (m now : ℚ) (fuel : ℕ) (st : AppState)
    (task : RecurringTask) (tl : List RecurringTask) (k : ℚ)
    (hq : st.tasks = task :: tl) (hk : task.next_execution = some k) (hdue : k < now)
    (hh : IsHeap taskLt st.tasks) (hs : AllSome st.tasks)
    (hfail : task.handler_fails = true) :
    ∃ st2, drain m now (fuel + 1) st = some (.exc st2 [Event.executed task]) ∧
      compute_next_execution_time now task ∈ st2.tasks ∧
      st2.tasks.Perm (compute_next_execution_time now task :: tl) ∧
      st2.downtime = st.downtime ∧
      loop_continues false false true = true := by
  have hne : st.tasks ≠ [] := by rw [hq]; simp
  obtain ⟨q2, hpop2, _, _, _⟩ :=
    heappop_spec taskLt_irrefl taskLt_trans taskLt_negtrans st.tasks hh hne
  obtain ⟨hpt, hrest_perm, _, _, hpush_perm⟩ :=
    drain_step_core now st task tl (st.tasks.getD 0 default) q2 hq hh hs hpop2
  have hgd : st.tasks.getD 0 default = task := by rw [hq]; rfl
  rw [hgd] at hpop2 hpush_perm
  have hpop3 : heappop taskLt (task :: tl) = some (task, q2) := by
    rw [← hq]
    exact hpop2
  refine ⟨{ st with tasks := add_recurring_task now task q2 }, ?_, ?_, hpush_perm, rfl, rfl⟩
  · rw [drain, hq]
    simp only []
    rw [if_pos (by rw [hk]; simpa [optLt] using hdue), hpop3]
    simp only []
    rw [if_pos hfail]
  · exact hpush_perm.symm.subset (List.Mem.head _)

/-- Witness for C8: a single due task whose handler raises. -/
theorem c8_reschedule_before_handler_witness :
    ∃ st2, drain 20 1 (0 + 1)
        ⟨[{ name := "f", next_execution := some 0, handler_fails := true }], 0⟩
        = some (.exc st2 [Event.executed
            { name := "f", next_execution := some 0, handler_fails := true }]) ∧
      compute_next_execution_time 1
          { name := "f", next_execution := some 0, handler_fails := true } ∈ st2.tasks ∧
      st2.tasks.Perm [compute_next_execution_time 1
          { name := "f", next_execution := some 0, handler_fails := true }] ∧
      st2.downtime = (⟨[{ name := "f", next_execution := some 0, handler_fails := true }],
          0⟩ : AppState).downtime ∧
      loop_continues false false true = true :=
  c8_reschedule_before_handler 20 1 0
    ⟨[{ name := "f", next_execution := some 0, handler_fails := true }], 0⟩
    { name := "f", next_execution := some 0, handler_fails := true } [] 0 rfl rfl
    (by norm_num)
    (by
      intro c hc0 hclen hcs
      simp only [List.length_cons, List.length_nil] at hclen
      omega)
    (by intro t ht; fin_cases ht; rfl)
    rfl

theorem reportStep_events_shape (st : AppState) :
    ∀ e ∈ (reportStep st).2, ∃ n, e = Event.reported n := by
  unfold reportStep
  split
  · intro e he
    simp only [List.mem_singleton] at he
    exact ⟨_, he⟩
  · intro e he
    exact absurd he (by simp)

/-- C5: in the waking step after a sleep with a pending task, downtime
tracking fires iff the oversleep `t1 - nextExecution` strictly exceeds
`maximum_timer_slack`, and the tracked delay is exactly the oversleep. -/
theorem c5_oversleep_gate (slack m t0 t1 : ℚ) (fuel : ℕ) (st : AppState)
    (task : RecurringTask) (tl : List RecurringTask) (k : ℚ)
    (hq : st.tasks = task :: tl) (hk : task.next_execution = some k)
    (hwait : 0 < k - t0)
    (out : CycleResult) (h : cycle slack m t0 t1 fuel st = some out) :
    (slack < t1 - k ↔ Event.overslept (t1 - k) ∈ out.evs) ∧
    (∀ d, Event.overslept d ∈ out.evs → d = t1 - k ∧ slack < t1 - k) := by
  have hgd : task.next_execution.getD 0 = k := by rw [hk]; rfl
  simp only [cycle] at h
  rw [hq] at h
  simp only [] at h
  rw [hgd] at h
  by_cases hov : slack < t1 - k
  · rw [if_pos ⟨hwait, hov⟩] at h
    cases hdr : drain m t1 fuel (track_downtime (t1 - k) st) with
    | none =>
      rw [hdr] at h
      exact absurd h (by simp)
    | some res =>
      rw [hdr] at h
      have hshape := drain_events_shape m t1 fuel _ res hdr
      cases res with
      | exc st2 evs2 =>
        simp only [] at h
        have hout := Option.some.inj h
        subst hout
        refine ⟨⟨fun _ => List.Mem.head _, fun _ => hov⟩, ?_⟩
        intro d hd
        rcases List.mem_cons.mp hd with hd | hd
        · injection hd with hd2
          exact ⟨hd2, hov⟩
        · rcases hshape _ hd with ⟨t, het⟩ | ⟨t, dd, het, _⟩ <;>
            exact absurd het (by simp)
      | ok st2 evs2 =>
        simp only [] at h
        have hout := Option.some.inj h
        subst hout
        refine ⟨⟨fun _ => List.Mem.head _, fun _ => hov⟩, ?_⟩
        intro d hd
        rcases List.mem_cons.mp hd with hd | hd
        · injection hd with hd2
          exact ⟨hd2, hov⟩
        · rcases List.mem_append.mp hd with hd | hd
          · rcases hshape _ hd with ⟨t, het⟩ | ⟨t, dd, het, _⟩ <;>
              exact absurd het (by simp)
          · obtain ⟨n, hn⟩ := reportStep_events_shape st2 _ hd
            exact absurd hn (by simp)
  · rw [if_neg (fun hcon => hov hcon.2)] at h
    cases hdr : drain m t1 fuel st with
    | none =>
      rw [hdr] at h
      exact absurd h (by simp)
    | some res =>
      rw [hdr] at h
      have hshape := drain_events_shape m t1 fuel _ res hdr
      cases res with
      | exc st2 evs2 =>
        simp only [] at h
        have hout := Option.some.inj h
        subst hout
        refine ⟨⟨fun hcon => absurd hcon hov, fun hmem => ?_⟩, ?_⟩
        · exfalso
          rcases hshape _ hmem with ⟨t, het⟩ | ⟨t, dd, het, _⟩ <;>
            exact absurd het (by simp)
        · intro d hd
          exfalso
          rcases hshape _ hd with ⟨t, het⟩ | ⟨t, dd, het, _⟩ <;>
            exact absurd het (by simp)
      | ok st2 evs2 =>
        simp only [] at h
        have hout := Option.some.inj h
        subst hout
        have hnomem : ∀ d, Event.overslept d ∉ evs2 ++ (reportStep st2).2 := by
          intro d hd
          rcases List.mem_append.mp hd with hd | hd
          · rcases hshape _ hd with ⟨t, het⟩ | ⟨t, dd, het, _⟩ <;>
              exact absurd het (by simp)
          · obtain ⟨n, hn⟩ := reportStep_events_shape st2 _ hd
            exact absurd hn (by simp)
        exact ⟨⟨fun hcon => absurd hcon hov, fun hmem => absurd hmem (hnomem _)⟩,
          fun d hd => absurd hd (hnomem d)⟩

/-- Witness for C5: with `maximum_timer_slack = 5`, an oversleep of `5.1`
seconds tracks exactly `5.1`, and an oversleep of `4.9` seconds tracks
nothing. -/
theorem c5_oversleep_gate_witness :
    (Event.overslept ((151 : ℚ)/10 - 10) ∈
      (⟨⟨[ceTask "x" (151/10)], 0⟩,
        [Event.overslept ((151 : ℚ)/10 - 10), Event.reported 5], false⟩ : CycleResult).evs) ∧
    ((5 : ℚ) < (149 : ℚ)/10 - 10 ↔ Event.overslept ((149 : ℚ)/10 - 10) ∈
      (⟨⟨[ceTask "x" (249/10)], 0⟩,
        [Event.executed (ceTask "x" 10)], false⟩ : CycleResult).evs) := by
  have hAdapt : adapt_active_recurring_tasks ((151 : ℚ)/10 - 10) [ceTask "x" 10]
      = [ceTask "x" (151/10)] := by
    simp [adapt_active_recurring_tasks, adapt_to_delay, heapify, heapifyAux, ceTask]
  have hPop : heappop taskLt [ceTask "x" 10] = some (ceTask "x" 10, []) := by
    simp [heappop]
  have hPush : add_recurring_task ((149 : ℚ)/10) (ceTask "x" 10) [] = [ceTask "x" (249/10)] := by
    simp [add_recurring_task, compute_next_execution_time, heappush, siftdownAux,
      ceTask, DEFAULT_TASK_INTERVAL]
    norm_num
  have hTrack : track_downtime ((151 : ℚ)/10 - (ceTask "x" 10).next_execution.getD 0)
      ⟨[ceTask "x" 10], 0⟩
      = ⟨[ceTask "x" (151/10)], 0 + ((151 : ℚ)/10 - 10)⟩ := by
    have hval : (151 : ℚ)/10 - (ceTask "x" 10).next_execution.getD 0
        = (151 : ℚ)/10 - 10 := by
      norm_num [ceTask]
    rw [hval]
    unfold track_downtime
    rw [hAdapt]
  have hReport : reportStep ⟨[ceTask "x" (151/10)], 0 + ((151 : ℚ)/10 - 10)⟩
      = (⟨[ceTask "x" (151/10)], 0⟩, [Event.reported 5]) := by
    unfold reportStep
    rw [if_pos (by norm_num)]
    norm_num [pyInt]
  have hReport2 : reportStep ⟨[ceTask "x" (249/10)], 0⟩
      = (⟨[ceTask "x" (249/10)], 0⟩, []) := by
    unfold reportStep
    rw [if_neg (by norm_num)]
  have h1 : cycle 5 20 0 (151/10) 1 ⟨[ceTask "x" 10], 0⟩
      = some ⟨⟨[ceTask "x" (151/10)], 0⟩,
          [Event.overslept ((151 : ℚ)/10 - 10), Event.reported 5], false⟩ := by
    simp only [cycle]
    rw [if_pos (by constructor <;> norm_num [ceTask])]
    rw [hTrack]
    rw [show (1 : ℕ) = 0 + 1 from rfl,
      drain_cons_stop 20 (151/10) 0 (ceTask "x" (151/10)) [] (0 + ((151 : ℚ)/10 - 10))
        (by norm_num [optLt, ceTask])]
    simp only []
    rw [hReport]
    norm_num [ceTask]
  have h2 : cycle 5 20 0 (149/10) 2 ⟨[ceTask "x" 10], 0⟩
      = some ⟨⟨[ceTask "x" (249/10)], 0⟩, [Event.executed (ceTask "x" 10)], false⟩ := by
    simp only [cycle]
    rw [if_neg (by intro hcon; have := hcon.2; norm_num [ceTask] at this)]
    rw [show (2 : ℕ) = 1 + 1 from rfl,
      drain_cons_nogate 20 (149/10) 1 (ceTask "x" 10) (ceTask "x" 10) [] [] 0
        (by norm_num [optLt, ceTask]) hPop (by decide) (by norm_num [ceTask]),
      hPush,
      show (1 : ℕ) = 0 + 1 from rfl,
      drain_cons_stop 20 (149/10) 0 (ceTask "x" (249/10)) [] 0
        (by norm_num [optLt, ceTask])]
    simp only [consEvents]
    rw [hReport2]
    simp
  refine ⟨?_, ?_⟩
  · exact ((c5_oversleep_gate 5 20 0 (151/10) 1 ⟨[ceTask "x" 10], 0⟩ (ceTask "x" 10) [] 10
      rfl rfl (by norm_num) _ h1).1).mp (by norm_num)
  · exact Iff.intro
      (fun hcon => absurd hcon (by norm_num))
      (fun hmem => absurd hmem (by
        have := (c5_oversleep_gate 5 20 0 (149/10) 2 ⟨[ceTask "x" 10], 0⟩ (ceTask "x" 10) [] 10
          rfl rfl (by norm_num) _ h2).2
        intro hm
        have h3 := this _ hm
        norm_num at h3))

/-- C9: when the earliest task is already due at the start of a cycle
(`wait_in_seconds ≤ 0`, `base_app.py:220`), the sleep and the oversleep
check (`base_app.py:241-250`) are skipped entirely: no oversleep is
tracked regardless of how late the task is, and the only delays tracked
during the cycle are per-task catch-up delays strictly exceeding
`minimum_downtime_duration`. -/
theorem c9_no_oversleep_when_already_due (slack m t0 t1 : ℚ) (fuel : ℕ)
    (st : AppState) (task : RecurringTask) (tl : List RecurringTask)
    (hq : st.tasks = task :: tl)
    (hwait : task.next_execution.getD 0 - t0 ≤ 0)
    (out : CycleResult) (h : cycle slack m t0 t1 fuel st = some out) :
    (∀ d, Event.overslept d ∉ out.evs) ∧
    (∀ t d, Event.taskDelay t d ∈ out.evs → m < d) := by
  simp only [cycle] at h
  rw [hq] at h
  simp only [] at h
  rw [if_neg (fun hcon => absurd hcon.1 (not_lt.mpr hwait))] at h
  cases hdr : drain m t1 fuel st with
  | none =>
    rw [hdr] at h
    exact absurd h (by simp)
  | some res =>
    rw [hdr] at h
    have hshape := drain_events_shape m t1 fuel _ res hdr
    cases res with
    | exc st2 evs2 =>
      simp only [] at h
      have hout := Option.some.inj h
      subst hout
      constructor
      · intro d hd
        rcases hshape _ hd with ⟨t, het⟩ | ⟨t, dd, het, _⟩ <;>
          exact absurd het (by simp)
      · intro t d hd
        rcases hshape _ hd with ⟨t2, het⟩ | ⟨t2, dd, het, hdd⟩
        · exact absurd het (by simp)
        · injection het with het1 het2
          exact het2 ▸ hdd
    | ok st2 evs2 =>
      simp only [] at h
      have hout := Option.some.inj h
      subst hout
      constructor
      · intro d hd
        rcases List.mem_append.mp hd with hd | hd
        · rcases hshape _ hd with ⟨t, het⟩ | ⟨t, dd, het, _⟩ <;>
            exact absurd het (by simp)
        · obtain ⟨n, hn⟩ := reportStep_events_shape st2 _ hd
          exact absurd hn (by simp)
      · intro t d hd
        rcases List.mem_append.mp hd with hd | hd
        · rcases hshape _ hd with ⟨t2, het⟩ | ⟨t2, dd, het, hdd⟩
          · exact absurd het (by simp)
          · injection het with het1 het2
            exact het2 ▸ hdd
        · obtain ⟨n, hn⟩ := reportStep_events_shape st2 _ hd
          exact absurd hn (by simp)

/-- Witness for C9: a task due at `10` seen at `t0 = 12` (wait `= -2`) and
drained at `t1 = 14.9`: the cycle produces no oversleep event even though
the task is `4.9` seconds late. -/
theorem c9_no_oversleep_when_already_due_witness :
    (∀ d, Event.overslept d ∉
      (⟨⟨[ceTask "x" (249/10)], 0⟩,
        [Event.executed (ceTask "x" 10)], false⟩ : CycleResult).evs) ∧
    (∀ t d, Event.taskDelay t d ∈
      (⟨⟨[ceTask "x" (249/10)], 0⟩,
        [Event.executed (ceTask "x" 10)], false⟩ : CycleResult).evs → (20 : ℚ) < d) := by
  have hPop : heappop taskLt [ceTask "x" 10] = some (ceTask "x" 10, []) := by
    simp [heappop]
  have hPush : add_recurring_task ((149 : ℚ)/10) (ceTask "x" 10) [] = [ceTask "x" (249/10)] := by
    simp [add_recurring_task, compute_next_execution_time, heappush, siftdownAux,
      ceTask, DEFAULT_TASK_INTERVAL]
    norm_num
  have hReport : reportStep ⟨[ceTask "x" (249/10)], 0⟩
      = (⟨[ceTask "x" (249/10)], 0⟩, []) := by
    unfold reportStep
    rw [if_neg (by norm_num)]
  have hrun : cycle 5 20 12 (149/10) 2 ⟨[ceTask "x" 10], 0⟩
      = some ⟨⟨[ceTask "x" (249/10)], 0⟩, [Event.executed (ceTask "x" 10)], false⟩ := by
    simp only [cycle]
    rw [if_neg (by intro hcon; have := hcon.1; norm_num [ceTask] at this)]
    rw [show (2 : ℕ) = 1 + 1 from rfl,
      drain_cons_nogate 20 (149/10) 1 (ceTask "x" 10) (ceTask "x" 10) [] [] 0
        (by norm_num [optLt, ceTask]) hPop (by decide) (by norm_num [ceTask]),
      hPush,
      show (1 : ℕ) = 0 + 1 from rfl,
      drain_cons_stop 20 (149/10) 0 (ceTask "x" (249/10)) [] 0
        (by norm_num [optLt, ceTask])]
    simp only [consEvents]
    rw [hReport]
    simp
  exact c9_no_oversleep_when_already_due 5 20 12 (149/10) 2 ⟨[ceTask "x" 10], 0⟩
    (ceTask "x" 10) [] rfl (by norm_num [ceTask]) _ hrun

theorem trackedSum_overslept (d : ℚ) (l : List Event) :
    trackedSum (Event.overslept d :: l) = d + trackedSum l := by
  simp [trackedSum]

theorem trackedSum_append (l1 l2 : List Event) :
    trackedSum (l1 ++ l2) = trackedSum l1 + trackedSum l2 := by
  simp [trackedSum]

theorem trackedSum_reportStep (st : AppState) : trackedSum (reportStep st).2 = 0 := by
  unfold reportStep
  split <;> simp [trackedSum]

theorem reportStep_pos (st : AppState) (h : 0 < st.downtime) :
    reportStep st = ({ st with downtime := 0 }, [Event.reported (pyInt st.downtime)]) := by
  unfold reportStep
  rw [if_pos h]

theorem reportStep_nonpos (st : AppState) (h : ¬ 0 < st.downtime) :
    reportStep st = (st, []) := by
  unfold reportStep
  rw [if_neg h]

/-- C6 (amended): at the end of a wake cycle whose task queue is nonempty
and whose drain completed without an exception, let `d` be the start-of-cycle
accumulator plus all delays tracked during the cycle. If `0 < d`, the
downtime hook is invoked exactly once, as the last event, with the
int-truncated value `pyInt d` — not with `d` itself — and the accumulator is
reset to zero; if `d ≤ 0`, the hook is not invoked and the accumulator keeps
the value `d`. -/
theorem c6_reporting (slack m t0 t1 : ℚ) (fuel : ℕ) (st : AppState)
    (task : RecurringTask) (tl : List RecurringTask) (hq : st.tasks = task :: tl)
    (out : CycleResult)
    (h : cycle slack m t0 t1 fuel st = some out) (hexc : out.exc = false) :
    (0 < st.downtime + trackedSum out.evs →
      (∃ evs1, out.evs
          = evs1 ++ [Event.reported (pyInt (st.downtime + trackedSum out.evs))] ∧
        (∀ n, Event.reported n ∉ evs1)) ∧
      out.st.downtime = 0) ∧
    (st.downtime + trackedSum out.evs ≤ 0 →
      (∀ n, Event.reported n ∉ out.evs) ∧
      out.st.downtime = st.downtime + trackedSum out.evs) := by
  simp only [cycle] at h
  rw [hq] at h
  simp only [] at h
  by_cases hgate : 0 < task.next_execution.getD 0 - t0 ∧
      slack < t1 - task.next_execution.getD 0
  · rw [if_pos hgate] at h
    cases hdr : drain m t1 fuel (track_downtime (t1 - task.next_execution.getD 0) st) with
    | none =>
      rw [hdr] at h
      exact absurd h (by simp)
    | some res =>
      rw [hdr] at h
      have hshape := drain_events_shape m t1 fuel _ res hdr
      have hdown := drain_downtime m t1 fuel _ res hdr
      cases res with
      | exc st2 evs2 =>
        simp only [] at h
        have hout := Option.some.inj h
        subst hout
        simp only [] at hexc
        exact absurd hexc (by simp)
      | ok st2 evs2 =>
        simp only [] at h
        have hout := Option.some.inj h
        subst hout
        simp only [DrainResult.state, DrainResult.events, track_downtime] at hdown
        have hno2 : ∀ n, Event.reported n ∉ evs2 := by
          intro n hn
          rcases hshape _ hn with ⟨t, het⟩ | ⟨t, dd, het, _⟩ <;>
            exact absurd het (by simp)
        simp only []
        have hds : st.downtime + trackedSum
            ((Event.overslept (t1 - task.next_execution.getD 0) :: evs2)
              ++ (reportStep st2).2) = st2.downtime := by
          rw [trackedSum_append, trackedSum_overslept, trackedSum_reportStep, hdown]
          ring
        rw [hds]
        by_cases hpos : 0 < st2.downtime
        · refine ⟨fun _ => ⟨⟨Event.overslept (t1 - task.next_execution.getD 0) :: evs2,
            ?_, ?_⟩, ?_⟩, fun hle => absurd hpos (not_lt.mpr hle)⟩
          · rw [reportStep_pos st2 hpos]
          · intro n hn
            rcases List.mem_cons.mp hn with hn | hn
            · exact absurd hn (by simp)
            · exact hno2 n hn
          · rw [reportStep_pos st2 hpos]
        · refine ⟨fun hlt => absurd hlt hpos, fun _ => ⟨?_, ?_⟩⟩
          · intro n hn
            rw [reportStep_nonpos st2 hpos] at hn
            simp only [List.append_nil] at hn
            rcases List.mem_cons.mp hn with hn | hn
            · exact absurd hn (by simp)
            · exact hno2 n hn
          · rw [reportStep_nonpos st2 hpos]
  · rw [if_neg hgate] at h
    cases hdr : drain m t1 fuel st with
    | none =>
      rw [hdr] at h
      exact absurd h (by simp)
    | some res =>
      rw [hdr] at h
      have hshape := drain_events_shape m t1 fuel _ res hdr
      have hdown := drain_downtime m t1 fuel _ res hdr
      cases res with
      | exc st2 evs2 =>
        simp only [] at h
        have hout := Option.some.inj h
        subst hout
        simp only [] at hexc
        exact absurd hexc (by simp)
      | ok st2 evs2 =>
        simp only [] at h
        have hout := Option.some.inj h
        subst hout
        simp only [DrainResult.state, DrainResult.events] at hdown
        have hno2 : ∀ n, Event.reported n ∉ evs2 := by
          intro n hn
          rcases hshape _ hn with ⟨t, het⟩ | ⟨t, dd, het, _⟩ <;>
            exact absurd het (by simp)
        simp only []
        have hds : st.downtime + trackedSum (evs2 ++ (reportStep st2).2)
            = st2.downtime := by
          rw [trackedSum_append, trackedSum_reportStep, hdown]
          ring
        rw [hds]
        by_cases hpos : 0 < st2.downtime
        · refine ⟨fun _ => ⟨⟨evs2, ?_, hno2⟩, ?_⟩,
            fun hle => absurd hpos (not_lt.mpr hle)⟩
          · rw [reportStep_pos st2 hpos]
          · rw [reportStep_pos st2 hpos]
        · refine ⟨fun hlt => absurd hlt hpos, fun _ => ⟨?_, ?_⟩⟩
          · intro n hn
            rw [reportStep_nonpos st2 hpos] at hn
            simp only [List.append_nil] at hn
            exact hno2 n hn
          · rw [reportStep_nonpos st2 hpos]

/-- Counterexample for C6: a cycle accumulates a downtime of `5.5` seconds,
but the hook is invoked with the truncated integer `5` — no invocation
carries the accumulated value `5.5` itself. -/
theorem c6_counterexample :
    cycle 5 20 0 (31/2) 2 ⟨[ceTask "x" 10], 0⟩
      = some ⟨⟨[ceTask "x" (31/2)], 0⟩,
          [Event.overslept ((31 : ℚ)/2 - 10), Event.reported 5], false⟩ ∧
    (0 : ℚ) + trackedSum [Event.overslept ((31 : ℚ)/2 - 10), Event.reported 5] = 11/2 ∧
    Event.reported 5 ∈ [Event.overslept ((31 : ℚ)/2 - 10), Event.reported 5] ∧
    ∀ n : ℤ, Event.reported n ∈ [Event.overslept ((31 : ℚ)/2 - 10), Event.reported 5] →
      (n : ℚ) ≠ 11/2 := by
  have hAdapt : adapt_active_recurring_tasks ((31 : ℚ)/2 - 10) [ceTask "x" 10]
      = [ceTask "x" (31/2)] := by
    simp [adapt_active_recurring_tasks, adapt_to_delay, heapify, heapifyAux, ceTask]
  have hTrack : track_downtime ((31 : ℚ)/2 - (ceTask "x" 10).next_execution.getD 0)
      ⟨[ceTask "x" 10], 0⟩
      = ⟨[ceTask "x" (31/2)], 0 + ((31 : ℚ)/2 - 10)⟩ := by
    have hval : (31 : ℚ)/2 - (ceTask "x" 10).next_execution.getD 0
        = (31 : ℚ)/2 - 10 := by
      norm_num [ceTask]
    rw [hval]
    unfold track_downtime
    rw [hAdapt]
  have hReport : reportStep ⟨[ceTask "x" (31/2)], 0 + ((31 : ℚ)/2 - 10)⟩
      = (⟨[ceTask "x" (31/2)], 0⟩, [Event.reported 5]) := by
    unfold reportStep
    rw [if_pos (by norm_num)]
    norm_num [pyInt]
  have hrun : cycle 5 20 0 (31/2) 2 ⟨[ceTask "x" 10], 0⟩
      = some ⟨⟨[ceTask "x" (31/2)], 0⟩,
          [Event.overslept ((31 : ℚ)/2 - 10), Event.reported 5], false⟩ := by
    simp only [cycle]
    rw [if_pos (by constructor <;> norm_num [ceTask])]
    rw [hTrack]
    rw [show (2 : ℕ) = 1 + 1 from rfl,
      drain_cons_stop 20 (31/2) 1 (ceTask "x" (31/2)) [] (0 + ((31 : ℚ)/2 - 10))
        (by norm_num [optLt, ceTask])]
    simp only []
    rw [hReport]
    norm_num [ceTask]
  refine ⟨hrun, by norm_num [trackedSum], by simp, ?_⟩
  intro n hn
  rcases List.mem_cons.mp hn with hn | hn
  · exact absurd hn (by simp)
  · rcases List.mem_cons.mp hn with hn | hn
    · injection hn with hn5
      subst hn5
      norm_num
    · exact absurd hn (by simp)

/-- Witness for C6: in a cycle accumulating `5.5` seconds of downtime, the
report event is the last event, occurs exactly once, and carries
`pyInt 5.5 = 5`. -/
theorem c6_reporting_witness :
    ∃ evs1, [Event.overslept ((31 : ℚ)/2 - 10), Event.reported 5]
        = evs1 ++ [Event.reported (pyInt ((0 : ℚ) + trackedSum
            [Event.overslept ((31 : ℚ)/2 - 10), Event.reported 5]))] ∧
      ∀ n, Event.reported n ∉ evs1 := by
  have hAdapt : adapt_active_recurring_tasks ((31 : ℚ)/2 - 10) [ceTask "x" 10]
      = [ceTask "x" (31/2)] := by
    simp [adapt_active_recurring_tasks, adapt_to_delay, heapify, heapifyAux, ceTask]
  have hTrack : track_downtime ((31 : ℚ)/2 - (ceTask "x" 10).next_execution.getD 0)
      ⟨[ceTask "x" 10], 0⟩
      = ⟨[ceTask "x" (31/2)], 0 + ((31 : ℚ)/2 - 10)⟩ := by
    have hval : (31 : ℚ)/2 - (ceTask "x" 10).next_execution.getD 0
        = (31 : ℚ)/2 - 10 := by
      norm_num [ceTask]
    rw [hval]
    unfold track_downtime
    rw [hAdapt]
  have hReport : reportStep ⟨[ceTask "x" (31/2)], 0 + ((31 : ℚ)/2 - 10)⟩
      = (⟨[ceTask "x" (31/2)], 0⟩, [Event.reported 5]) := by
    unfold reportStep
    rw [if_pos (by norm_num)]
    norm_num [pyInt]
  have hrun : cycle 5 20 0 (31/2) 2 ⟨[ceTask "x" 10], 0⟩
      = some ⟨⟨[ceTask "x" (31/2)], 0⟩,
          [Event.overslept ((31 : ℚ)/2 - 10), Event.reported 5], false⟩ := by
    simp only [cycle]
    rw [if_pos (by constructor <;> norm_num [ceTask])]
    rw [hTrack]
    rw [show (2 : ℕ) = 1 + 1 from rfl,
      drain_cons_stop 20 (31/2) 1 (ceTask "x" (31/2)) [] (0 + ((31 : ℚ)/2 - 10))
        (by norm_num [optLt, ceTask])]
    simp only []
    rw [hReport]
    norm_num [ceTask]
  have happ := c6_reporting 5 20 0 (31/2) 2 ⟨[ceTask "x" 10], 0⟩ (ceTask "x" 10) [] rfl
    ⟨⟨[ceTask "x" (31/2)], 0⟩,
      [Event.overslept ((31 : ℚ)/2 - 10), Event.reported 5], false⟩ hrun rfl
  exact (happ.1 (by norm_num [trackedSum])).1

/-! ## Configuration: `configuration.py` -/

/-- A value stored for an option in a section's `__dict__`
(`configuration.py`): Python `bool`, `int` or `str`. -/
inductive PyValue
  | boolVal (b : Bool)
  | intVal (n : ℤ)
  | strVal (s : String)
deriving Repr, DecidableEq

/-- `type(value).__name__` for a stored option value. -/
def pyTypeName : PyValue → String
  | .boolVal _ => "bool"
  | .intVal _ => "int"
  | .strVal _ => "str"

/-- A `ConfigModel`'s `__dict__` (`configuration.py:78-131`), split into the
plain value entries (key = option name) and the typed-`None` marker entries
(key = `"_TYPE_" + option name`, value = the type's name); the split is
exact because the marker key determines the option name. -/
structure ConfigSection where
  values : List (String × PyValue)
  typeMarkers : List (String × String)
deriving Repr, DecidableEq

/-- `Configuration._sections` (`configuration.py:140`): a dict from section
names to section objects. -/
structure Configuration where
  sections : List (String × ConfigSection)
deriving Repr, DecidableEq

/-- Python dict assignment `d[k] = v`: replace an existing entry in place,
else append. -/
def dictSet : List (String × α) → String → α → List (String × α)
  | [], k, v => [(k, v)]
  | (k2, v2) :: rest, k, v =>
    if k2 == k then (k, v) :: rest else (k2, v2) :: dictSet rest k v

/-- `ConfigModel.has_option` (`configuration.py:100-104`): the option name
itself or its typed-`None` marker is in the dict. -/
def has_option (sec : ConfigSection) (p_option_name : String) : Bool :=
  (List.lookup p_option_name sec.values).isSome ||
  (List.lookup p_option_name sec.typeMarkers).isSome

/-- `ConfigModel.get_option_type` (`configuration.py:88-98`): the marker's
type name if a typed-`None` marker exists, else the stored value's type
name; `none` models the `KeyError` when neither exists (unreachable after
`has_option`). -/
def get_option_type (sec : ConfigSection) (p_option_name : String) : Option String :=
  match List.lookup p_option_name sec.typeMarkers with
  | some ty => some ty
  | none => (List.lookup p_option_name sec.values).map pyTypeName

/-- `VALID_BOOLEAN_TRUE_VALUES` (`configuration.py:33`). -/
def VALID_BOOLEAN_TRUE_VALUES : List String := ["1", "TRUE", "T", "YES", "WAHR", "JA", "J"]

/-- `VALID_BOOLEAN_FALSE_VALUES` (`configuration.py:34`). -/
def VALID_BOOLEAN_FALSE_VALUES : List String := ["0", "FALSE", "F", "NO", "FALSCH", "NEIN", "N"]

/-- Digits of a decimal literal after the first one, allowing single
underscores between digits (CPython `int`). -/
def pyDigitsCore : List Char → ℕ → Option ℕ
  | [], acc => some acc
  | '_' :: c :: rest, acc =>
    if c.isDigit then pyDigitsCore rest (acc * 10 + (c.toNat - 48)) else none
  | c :: rest, acc =>
    if c.isDigit then pyDigitsCore rest (acc * 10 + (c.toNat - 48)) else none

/-- A nonempty run of decimal digits (with underscore grouping after the
first digit). -/
def pyDigitsStart : List Char → Option ℕ
  | [] => none
  | c :: rest => if c.isDigit then pyDigitsCore rest (c.toNat - 48) else none

/-- Strip surrounding whitespace from a character list (the `str.strip`
step of `int`). -/
def pyStrip (cs : List Char) : List Char :=
  ((cs.dropWhile Char.isWhitespace).reverse.dropWhile Char.isWhitespace).reverse

/-- CPython `int(s)` on a string (`configuration.py:191`): optional
surrounding whitespace, an optional sign, then ASCII decimal digits with
single underscores permitted between digits; `none` models the raised
`ValueError`. -/
def pyParseInt (s : String) : Option ℤ :=
  match pyStrip s.toList with
  | '+' :: rest => (pyDigitsStart rest).map fun n => (n : ℤ)
  | '-' :: rest => (pyDigitsStart rest).map fun n => -(n : ℤ)
  | cs => (pyDigitsStart cs).map fun n => (n : ℤ)

/-- `setattr(section, p_option, value)` inside `set_config_value`: the
section object held in `_sections` is updated in place; a plain (non-type)
value always lands in the value entries (`configuration.py:124-131`). -/
def setOptionValue (cfg : Configuration) (sname : String) (sec : ConfigSection)
    (oname : String) (v : PyValue) : Configuration :=
  ⟨dictSet cfg.sections sname { sec with values := dictSet sec.values oname v }⟩

/-- `Configuration.set_config_value` (`configuration.py:164-198`), with the
locals `option_type` and `upper_value` inlined; `Except.error` models a
raised `ConfigurationException`. -/
def set_config_value (cfg : Configuration)
    (p_section_name p_option p_option_value : String) : Except String Configuration :=
  match List.lookup p_section_name cfg.sections with
  | none => Except.error ("Invalid section name " ++ p_section_name)
  | some sec =>
    if has_option sec p_option = false then
      Except.error ("Configuration file contains invalid setting " ++ p_option
        ++ " in section " ++ p_section_name)
    else
      if get_option_type sec p_option = some "bool" then
        if p_option_value.toUpper ∈ VALID_BOOLEAN_TRUE_VALUES then
          Except.ok (setOptionValue cfg p_section_name sec p_option (PyValue.boolVal true))
        else if p_option_value.toUpper ∈ VALID_BOOLEAN_FALSE_VALUES then
          Except.ok (setOptionValue cfg p_section_name sec p_option (PyValue.boolVal false))
        else
          Except.error ("Invalid Boolean value " ++ p_option_value ++ " in setting "
            ++ p_option ++ " of section " ++ p_section_name)
      else if get_option_type sec p_option = some "int" then
        match pyParseInt p_option_value with
        | some n =>
          Except.ok (setOptionValue cfg p_section_name sec p_option (PyValue.intVal n))
        | none =>
          Except.error ("Invalid numerical value " ++ p_option_value ++ " in setting "
            ++ p_option ++ " of section " ++ p_section_name)
      else
        Except.ok (setOptionValue cfg p_section_name sec p_option (PyValue.strVal p_option_value))

/-- The value `set_config_value` stores for a declared option type and a raw
string, when the coercion succeeds. -/
def coerced (ty : Option String) (val : String) : Option PyValue :=
  if ty = some "bool" then
    if val.toUpper ∈ VALID_BOOLEAN_TRUE_VALUES then some (PyValue.boolVal true)
    else if val.toUpper ∈ VALID_BOOLEAN_FALSE_VALUES then some (PyValue.boolVal false)
    else none
  else if ty = some "int" then
    (pyParseInt val).map PyValue.intVal
  else
    some (PyValue.strVal val)

theorem lookup_dictSet_self (d : List (String × α)) (k : String) (v : α) :
    List.lookup k (dictSet d k v) = some v := by
  induction d with
  | nil => simp [dictSet, List.lookup]
  | cons p rest ih =>
    obtain ⟨k2, v2⟩ := p
    by_cases h : k2 = k
    · subst h
      simp [dictSet, List.lookup]
    · simp only [dictSet]
      rw [if_neg (by simp [h])]
      simp only [List.lookup]
      rw [show (k == k2) = false from beq_eq_false_iff_ne.mpr (Ne.symm h)]
      exact ih

theorem lookup_dictSet_ne (d : List (String × α)) (k k2 : String) (v : α)
    (h : k2 ≠ k) : List.lookup k2 (dictSet d k v) = List.lookup k2 d := by
  induction d with
  | nil =>
    simp only [dictSet, List.lookup]
    rw [show (k2 == k) = false from beq_eq_false_iff_ne.mpr h]
  | cons p rest ih =>
    obtain ⟨k3, v3⟩ := p
    by_cases h3 : k3 = k
    · subst h3
      simp only [dictSet]
      rw [if_pos (by simp)]
      simp only [List.lookup]
      rw [show (k2 == k3) = false from beq_eq_false_iff_ne.mpr h]
    · simp only [dictSet]
      rw [if_neg (by simp [h3])]
      simp only [List.lookup]
      by_cases h23 : k2 = k3
      · subst h23
        rw [show (k2 == k2) = true from by simp]
      · rw [show (k2 == k3) = false from beq_eq_false_iff_ne.mpr h23]
        exact ih

/-- C10: `set_config_value` raises for an unknown section, an unknown
option, a boolean value outside the accepted token lists (compared
case-insensitively), and a non-integer string for an int option; otherwise
it stores exactly the named option of the named section, set to the string
coerced to the option's declared type, leaving every other section and
every other option of the named section unchanged. -/
theorem c10_set_config_value (cfg : Configuration) (sname oname val : String) :
    (List.lookup sname cfg.sections = none →
      ∃ e, set_config_value cfg sname oname val = Except.error e) ∧
    (∀ sec, List.lookup sname cfg.sections = some sec →
      has_option sec oname = false →
      ∃ e, set_config_value cfg sname oname val = Except.error e) ∧
    (∀ sec, List.lookup sname cfg.sections = some sec →
      has_option sec oname = true →
      (∀ v, coerced (get_option_type sec oname) val = some v →
        set_config_value cfg sname oname val
          = Except.ok (setOptionValue cfg sname sec oname v) ∧
        List.lookup sname (setOptionValue cfg sname sec oname v).sections
          = some { sec with values := dictSet sec.values oname v } ∧
        (∀ s, s ≠ sname → List.lookup s (setOptionValue cfg sname sec oname v).sections
          = List.lookup s cfg.sections) ∧
        List.lookup oname (dictSet sec.values oname v) = some v ∧
        (∀ o, o ≠ oname → List.lookup o (dictSet sec.values oname v)
          = List.lookup o sec.values)) ∧
      (coerced (get_option_type sec oname) val = none →
        ∃ e, set_config_value cfg sname oname val = Except.error e)) := by
  refine ⟨?_, ?_, ?_⟩
  · intro hnone
    unfold set_config_value
    rw [hnone]
    exact ⟨_, rfl⟩
  · intro sec hsec hfalse
    unfold set_config_value
    rw [hsec]
    simp only []
    rw [if_pos hfalse]
    exact ⟨_, rfl⟩
  · intro sec hsec htrue
    have hnotfalse : ¬ has_option sec oname = false := by
      rw [htrue]
      simp
    have hfacts : ∀ v : PyValue,
        List.lookup sname (setOptionValue cfg sname sec oname v).sections
          = some { sec with values := dictSet sec.values oname v } ∧
        (∀ s, s ≠ sname → List.lookup s (setOptionValue cfg sname sec oname v).sections
          = List.lookup s cfg.sections) ∧
        List.lookup oname (dictSet sec.values oname v) = some v ∧
        (∀ o, o ≠ oname → List.lookup o (dictSet sec.values oname v)
          = List.lookup o sec.values) := by
      intro v
      exact ⟨lookup_dictSet_self cfg.sections sname _,
        fun s hs => lookup_dictSet_ne cfg.sections sname s _ hs,
        lookup_dictSet_self sec.values oname v,
        fun o ho => lookup_dictSet_ne sec.values oname o v ho⟩
    constructor
    · intro v hv
      unfold coerced at hv
      by_cases hb : get_option_type sec oname = some "bool"
      · rw [if_pos hb] at hv
        by_cases htl : val.toUpper ∈ VALID_BOOLEAN_TRUE_VALUES
        · rw [if_pos htl] at hv
          have hveq := Option.some.inj hv
          subst hveq
          refine ⟨?_, hfacts _⟩
          unfold set_config_value
          rw [hsec]
          simp only []
          rw [if_neg hnotfalse, if_pos hb, if_pos htl]
        · rw [if_neg htl] at hv
          by_cases hfl : val.toUpper ∈ VALID_BOOLEAN_FALSE_VALUES
          · rw [if_pos hfl] at hv
            have hveq := Option.some.inj hv
            subst hveq
            refine ⟨?_, hfacts _⟩
            unfold set_config_value
            rw [hsec]
            simp only []
            rw [if_neg hnotfalse, if_pos hb, if_neg htl, if_pos hfl]
          · rw [if_neg hfl] at hv
            exact absurd hv (by simp)
      · rw [if_neg hb] at hv
        by_cases hi : get_option_type sec oname = some "int"
        · rw [if_pos hi] at hv
          cases hp : pyParseInt val with
          | none =>
            rw [hp] at hv
            exact absurd hv (by simp)
          | some n =>
            rw [hp] at hv
            simp only [Option.map_some'] at hv
            have hveq := Option.some.inj hv
            subst hveq
            refine ⟨?_, hfacts _⟩
            unfold set_config_value
            rw [hsec]
            simp only []
            rw [if_neg hnotfalse, if_neg hb, if_pos hi, hp]
        · rw [if_neg hi] at hv
          have hveq := Option.some.inj hv
          subst hveq
          refine ⟨?_, hfacts _⟩
          unfold set_config_value
          rw [hsec]
          simp only []
          rw [if_neg hnotfalse, if_neg hb, if_neg hi]
    · intro hnone
      unfold coerced at hnone
      by_cases hb : get_option_type sec oname = some "bool"
      · rw [if_pos hb] at hnone
        by_cases htl : val.toUpper ∈ VALID_BOOLEAN_TRUE_VALUES
        · rw [if_pos htl] at hnone
          exact absurd hnone (by simp)
        · rw [if_neg htl] at hnone
          by_cases hfl : val.toUpper ∈ VALID_BOOLEAN_FALSE_VALUES
          · rw [if_pos hfl] at hnone
            exact absurd hnone (by simp)
          · unfold set_config_value
            rw [hsec]
            simp only []
            rw [if_neg hnotfalse, if_pos hb, if_neg htl, if_neg hfl]
            exact ⟨_, rfl⟩
      · rw [if_neg hb] at hnone
        by_cases hi : get_option_type sec oname = some "int"
        · rw [if_pos hi] at hnone
          cases hp : pyParseInt val with
          | none =>
            unfold set_config_value
            rw [hsec]
            simp only []
            rw [if_neg hnotfalse, if_neg hb, if_pos hi, hp]
            simp only []
            exact ⟨_, rfl⟩
          | some n =>
            rw [hp] at hnone
            exact absurd hnone (by simp)
        · rw [if_neg hi] at hnone
          exact absurd hnone (by simp)

/-- Witness for C10: on a configuration with one section `general` holding
an int option `port = 80`, setting `port` to the string `"8080"` succeeds,
stores the integer `8080`, and changes nothing else. -/
theorem c10_set_config_value_witness :
    set_config_value ⟨[("general", ⟨[("port", PyValue.intVal 80)], []⟩)]⟩
        "general" "port" "8080"
      = Except.ok (setOptionValue ⟨[("general", ⟨[("port", PyValue.intVal 80)], []⟩)]⟩
          "general" ⟨[("port", PyValue.intVal 80)], []⟩ "port" (PyValue.intVal 8080)) ∧
    List.lookup "port" (dictSet [("port", PyValue.intVal 80)] "port" (PyValue.intVal 8080))
      = some (PyValue.intVal 8080) := by
  have happ := ((c10_set_config_value ⟨[("general", ⟨[("port", PyValue.intVal 80)], []⟩)]⟩
      "general" "port" "8080").2.2 ⟨[("port", PyValue.intVal 80)], []⟩ (by rfl)
      (by rfl)).1 (PyValue.intVal 8080) (by decide)
  exact ⟨happ.1, happ.2.2.2.1⟩
